import Mathlib

/-!
# Verification of the GitSim repository core (`src/git_sim/repository.py`)

This file gives a shallow embedding of the repository state machine of
GitSim: the staging stack, the commit graph, branch pointers, the working
directory, and the pull-request engine, together with proofs of the
specification claims about them.

Modelling conventions:
* Python `dict` (insertion ordered, unique keys) is an association list;
  `dictInsert` replaces in place or appends, exactly like `d[k] = v`.
* Python `set` is a duplicate-free list; `setInsert` is `s.add(x)`.
* The linked `Stack` is a `List` whose head is the top; the linked `Queue`
  is a `List` whose head is the front.
* `datetime.now()` is an explicit `Nat` argument on every operation that
  reads the clock; `f"{x}"` on a number is `Nat.repr`, and on an
  `Optional[str]` it is `optStr` (Python prints `None`).
* `hashlib.sha1(...).hexdigest()` is an explicit function parameter
  `hash : String → String`; everything is proved for an arbitrary hash,
  and witnesses instantiate it concretely.
* A raised `ValueError` is an `Except.error` carrying the distinguishable
  error kind together with the repository state at the moment of the
  raise (Python leaves the object in that state; every raise in the
  source happens before any mutation except the working-directory write
  at the top of `add`).
-/

namespace GitSim

/-! ## Python dict / set primitives -/

/-- `d.get(k)` / `d[k]` lookup on an insertion-ordered dict. -/
def dictLookup {β : Type} (k : String) : List (String × β) → Option β
  | [] => none
  | (k', v) :: rest => if k' = k then some v else dictLookup k rest

/-- `d[k] = v`: replace the binding in place if the key exists, else append. -/
def dictInsert {β : Type} (k : String) (v : β) : List (String × β) → List (String × β)
  | [] => [(k, v)]
  | (k', v') :: rest =>
    if k' = k then (k', v) :: rest else (k', v') :: dictInsert k v rest

/-- `d.keys()` in insertion order. -/
def dictKeys {β : Type} (d : List (String × β)) : List String := d.map (·.1)

/-- `s.add(x)` on a Python set modelled as a duplicate-free list. -/
def setInsert (x : String) (s : List String) : List String :=
  if x ∈ s then s else s ++ [x]

/-- `s.update(xs)` on a Python set. -/
def setUnion (s : List String) (xs : List String) : List String :=
  xs.foldl (fun acc x => setInsert x acc) s

/-! ## Data model (`data_structures.py`) -/

/-- `StagedFile` dataclass. -/
structure StagedFile where
  path : String
  content : String
  status : String
  checksum : String
  last_commit_id : Option String
deriving DecidableEq, Repr

/-- `Commit` dataclass. `changes` is the path → content dict. -/
structure Commit where
  id : String
  message : String
  timestamp : Nat
  author_email : String
  parent_id : Option String
  changes : List (String × String)
  branch : String
deriving DecidableEq, Repr

/-- `PullRequest` dataclass. -/
structure PullRequest where
  id : String
  title : String
  description : String
  author : String
  created_at : Nat
  source_branch : String
  target_branch : String
  commit_ids : List String
  modified_files : List String
  reviewers : List String
  closed_at : Option Nat := none
  merged_at : Option Nat := none
  status : String := "open"
  tags : List String := []
deriving DecidableEq, Repr

/-- The error kinds raised (as `ValueError`s) by `repository.py`.
`keyError` stands for an uncaught Python `KeyError` / non-terminating walk;
the proofs show it is unreachable through the public API. -/
inductive GitError where
  | unknownBranch (name : String)
  | branchExists (name : String)
  | unknownCommit (id : String)
  | emptyStaging
  | uncommittedChanges
  | unknownPR (id : String)
  | invalidState (id : String)
  | noChanges
  | keyError
deriving DecidableEq, Repr

/-- The `Repository` object state (`Repository.__init__`). -/
structure RepoState where
  commits : List (String × Commit)
  current_branch : String
  branches : List (String × Option String)
  head : Option String
  working_directory : List (String × String)
  detached_head : Bool
  staging_stack : List StagedFile
  pull_requests : List PullRequest
  pr_counter : Nat
  pr_map : List (String × PullRequest)
deriving DecidableEq, Repr

/-- `Repository.__init__`: fresh repository. -/
def initState : RepoState where
  commits := []
  current_branch := "main"
  branches := [("main", none)]
  head := none
  working_directory := []
  detached_head := false
  staging_stack := []
  pull_requests := []
  pr_counter := 0
  pr_map := []

/-! ## Commit id computation (`Repository.commit`, id portion) -/

/-- Python `f"{x}"` for `Optional[str]`. -/
def optStr : Option String → String
  | none => "None"
  | some s => s

/-- Python tuple ordering on `(filename, content)` pairs, as used by
`sorted(changes.items())`. -/
def pairLe (a b : String × String) : Prop :=
  a.1 < b.1 ∨ (a.1 = b.1 ∧ a.2 ≤ b.2)

instance : DecidableRel pairLe := fun a b => by
  unfold pairLe; exact inferInstance

instance : IsTotal (String × String) pairLe where
  total a b := by
    rcases lt_trichotomy a.1 b.1 with h | h | h
    · exact Or.inl (Or.inl h)
    · rcases le_total a.2 b.2 with h2 | h2
      · exact Or.inl (Or.inr ⟨h, h2⟩)
      · exact Or.inr (Or.inr ⟨h.symm, h2⟩)
    · exact Or.inr (Or.inl h)

instance : IsTrans (String × String) pairLe where
  trans a b c hab hbc := by
    rcases hab with h1 | ⟨h1, h1'⟩
    · rcases hbc with h2 | ⟨h2, h2'⟩
      · exact Or.inl (h1.trans h2)
      · exact Or.inl (h2 ▸ h1)
    · rcases hbc with h2 | ⟨h2, h2'⟩
      · exact Or.inl (h1 ▸ h2)
      · exact Or.inr ⟨h1.trans h2, h1'.trans h2'⟩

instance : IsAntisymm (String × String) pairLe where
  antisymm a b hab hba := by
    rcases hab with h1 | ⟨h1, h1'⟩
    · rcases hba with h2 | ⟨h2, h2'⟩
      · exact absurd (h1.trans h2) (lt_irrefl _)
      · exact absurd h1 (h2 ▸ lt_irrefl _)
    · rcases hba with h2 | ⟨h2, h2'⟩
      · exact absurd h2 (h1 ▸ lt_irrefl _)
      · exact Prod.ext h1 (le_antisymm h1' h2')

/-- `sorted(changes.items())`. Because the ordering is total and the keys
of a dict are distinct, any sorting algorithm returns the same list. -/
def sortedItems (changes : List (String × String)) : List (String × String) :=
  List.insertionSort pairLe changes

/-- The `content_str` accumulated by `Repository.commit` before hashing:
message, timestamp, parent (or `None`), author, then each staged
`filename`/`content` pair in sorted order. -/
def contentStr (message : String) (timestamp : Nat) (head : Option String)
    (author_email : String) (changes : List (String × String)) : String :=
  (sortedItems changes).foldl (fun acc fc => acc ++ fc.1 ++ fc.2)
    (message ++ Nat.repr timestamp ++ optStr head ++ author_email)

/-- The first loop of `Repository.commit`: pop every staged file off the
stack, recording `changes[path] = content` in pop (top-first) order.
The stack itself is restored unchanged afterwards. -/
def materializeChanges (staging : List StagedFile) : List (String × String) :=
  staging.foldl (fun d f => dictInsert f.path f.content d) []

/-- The commit id computed by `Repository.commit` on state `s`. -/
def commitIdOf (hash : String → String) (time : Nat) (message author_email : String)
    (s : RepoState) : String :=
  hash (contentStr message time s.head author_email (materializeChanges s.staging_stack))

/-! ## Operations of `Repository` -/

/-- First staging loop of `Repository.add`: pop everything, pushing entries
whose path differs from `filename` onto a temporary stack. -/
def siftStack (filename : String) : List StagedFile → List StagedFile → List StagedFile
  | [], temp => temp
  | f :: rest, temp =>
    siftStack filename rest (if f.path ≠ filename then f :: temp else temp)

/-- Second staging loop of `Repository.add`: pop the temporary stack back
onto the staging stack. -/
def unwindStack : List StagedFile → List StagedFile → List StagedFile
  | [], dst => dst
  | x :: rest, dst => unwindStack rest (x :: dst)

/-- `Repository.add(filename, content)`. Writes the working directory
first, computes the file hash and disposition against the head commit,
then replaces any prior staged entry for the path. -/
def addOp (hash : String → String) (filename content : String) (s : RepoState) :
    Except (GitError × RepoState) RepoState :=
  let s0 := { s with working_directory := dictInsert filename content s.working_directory }
  let file_hash := hash content
  match s0.head with
  | none =>
    let staged_file : StagedFile :=
      { path := filename, content := content, status := "A",
        checksum := file_hash, last_commit_id := none }
    .ok { s0 with staging_stack :=
      staged_file :: unwindStack (siftStack filename s0.staging_stack []) [] }
  | some h =>
    match dictLookup h s0.commits with
    | none => .error (.keyError, s0)
    | some current_commit =>
      let sl : String × Option String :=
        match dictLookup filename current_commit.changes with
        | none => ("A", none)
        | some old_content =>
          (if old_content ≠ content then "M" else "A", some h)
      let staged_file : StagedFile :=
        { path := filename, content := content, status := sl.1,
          checksum := file_hash, last_commit_id := sl.2 }
      .ok { s0 with staging_stack :=
        staged_file :: unwindStack (siftStack filename s0.staging_stack []) [] }

/-- `Repository.commit(message, author_email)`. -/
def commitOp (hash : String → String) (time : Nat) (message author_email : String)
    (s : RepoState) : Except (GitError × RepoState) (String × RepoState) :=
  if s.staging_stack = [] then .error (.emptyStaging, s)
  else
    let changes := materializeChanges s.staging_stack
    let commit_id := commitIdOf hash time message author_email s
    let new_commit : Commit :=
      { id := commit_id, message := message, timestamp := time,
        author_email := author_email, parent_id := s.head, changes := changes,
        branch := s.current_branch }
    .ok (commit_id,
      { s with
        commits := dictInsert commit_id new_commit s.commits,
        head := some commit_id,
        branches :=
          if s.detached_head then s.branches
          else dictInsert s.current_branch (some commit_id) s.branches,
        staging_stack := [] })

/-- `Repository.branch(name)`. -/
def branchOp (name : String) (s : RepoState) : Except (GitError × RepoState) RepoState :=
  if name ∈ dictKeys s.branches then .error (.branchExists name, s)
  else .ok { s with branches := dictInsert name s.head s.branches }

/-- `Repository.checkout(branch_name)`. -/
def checkoutOp (branch_name : String) (s : RepoState) :
    Except (GitError × RepoState) RepoState :=
  match dictLookup branch_name s.branches with
  | none => .error (.unknownBranch branch_name, s)
  | some ptr =>
    if s.staging_stack ≠ [] then .error (.uncommittedChanges, s)
    else
      let wd : List (String × String) :=
        match ptr with
        | some h =>
          match dictLookup h s.commits with
          | some c => c.changes
          | none => []
        | none => []
      .ok { s with current_branch := branch_name, head := ptr,
                   detached_head := false, working_directory := wd,
                   staging_stack := [] }

/-- `Repository.checkout_commit(commit_id)`. -/
def checkoutCommitOp (commit_id : String) (s : RepoState) :
    Except (GitError × RepoState) RepoState :=
  match dictLookup commit_id s.commits with
  | none => .error (.unknownCommit commit_id, s)
  | some c =>
    if s.staging_stack ≠ [] then .error (.uncommittedChanges, s)
    else .ok { s with head := some commit_id, detached_head := true,
                      working_directory := c.changes, staging_stack := [] }

/-- The `while current:` parent walk shared by `_get_branch_commits` and
`get_commit_history`, with explicit fuel. A fuel of `commits.length + 1`
is enough for every terminating Python run (a terminating walk never
revisits an id); `none` models a `KeyError` or a non-terminating loop. -/
def walkParents (commits : List (String × Commit)) : Nat → Option String → Option (List String)
  | _, none => some []
  | 0, some _ => none
  | fuel + 1, some c =>
    match dictLookup c commits with
    | none => none
    | some cm => (walkParents commits fuel cm.parent_id).map (fun l => c :: l)

/-- `Repository._get_branch_commits(branch_name)` (ids, newest first). -/
def branchCommits (s : RepoState) (branch_name : String) : Option (List String) :=
  match dictLookup branch_name s.branches with
  | none => none
  | some ptr => walkParents s.commits (s.commits.length + 1) ptr

/-- `Repository.get_commit_history()` (ids, newest first). -/
def getCommitHistory (s : RepoState) : Option (List String) :=
  walkParents s.commits (s.commits.length + 1) s.head

/-- The `modified_files` loop of `create_pull_request`:
`for commit_id in unique_commits: modified_files.update(commits[commit_id].changes.keys())`. -/
def collectModified (commits : List (String × Commit)) :
    List String → List String → Option (List String)
  | [], acc => some acc
  | cid :: rest, acc =>
    match dictLookup cid commits with
    | none => none
    | some c => collectModified commits rest (setUnion acc (dictKeys c.changes))

/-- `Repository.create_pull_request(title, description, source_branch, target_branch, author)`. -/
def createPrOp (time : Nat) (title description source_branch target_branch author : String)
    (s : RepoState) : Except (GitError × RepoState) (String × RepoState) :=
  if source_branch ∉ dictKeys s.branches then .error (.unknownBranch source_branch, s)
  else if target_branch ∉ dictKeys s.branches then .error (.unknownBranch target_branch, s)
  else
    match branchCommits s source_branch, branchCommits s target_branch with
    | some source_commits, some target_commits =>
      let unique_commits := source_commits.filter (fun c => c ∉ target_commits)
      if unique_commits = [] then .error (.noChanges, s)
      else
        match collectModified s.commits unique_commits [] with
        | none => .error (.keyError, s)
        | some modified_files =>
          let pr_id := "PR-" ++ Nat.repr (s.pr_counter + 1)
          let pr : PullRequest :=
            { id := pr_id, title := title, description := description,
              author := author, created_at := time,
              source_branch := source_branch, target_branch := target_branch,
              commit_ids := unique_commits, modified_files := modified_files,
              reviewers := [] }
          .ok (pr_id,
            { s with pr_counter := s.pr_counter + 1,
                     pull_requests := s.pull_requests ++ [pr],
                     pr_map := dictInsert pr_id pr s.pr_map })
    | _, _ => .error (.keyError, s)

/-- Mutating the single `PullRequest` object shared (by Python aliasing)
between `pr_map[pr_id]` and the queue node carrying that id. -/
def updatePr (pr_id : String) (f : PullRequest → PullRequest) (s : RepoState) : RepoState :=
  { s with
    pr_map := s.pr_map.map (fun kv => if kv.1 = pr_id then (kv.1, f kv.2) else kv),
    pull_requests := s.pull_requests.map (fun p => if p.id = pr_id then f p else p) }

/-- `Repository.review_pull_request(pr_id, reviewer)`. -/
def reviewPrOp (pr_id reviewer : String) (s : RepoState) :
    Except (GitError × RepoState) RepoState :=
  match dictLookup pr_id s.pr_map with
  | none => .error (.unknownPR pr_id, s)
  | some pr =>
    if pr.status ≠ "open" then .error (.invalidState pr_id, s)
    else .ok (updatePr pr_id (fun p => { p with reviewers := setInsert reviewer p.reviewers }) s)

/-- `Repository.approve_pull_request(pr_id)`. -/
def approvePrOp (time : Nat) (pr_id : String) (s : RepoState) :
    Except (GitError × RepoState) RepoState :=
  match dictLookup pr_id s.pr_map with
  | none => .error (.unknownPR pr_id, s)
  | some pr =>
    if pr.status ≠ "open" then .error (.invalidState pr_id, s)
    else .ok (updatePr pr_id (fun p => { p with status := "approved", closed_at := some time }) s)

/-- `Repository.reject_pull_request(pr_id)`. -/
def rejectPrOp (time : Nat) (pr_id : String) (s : RepoState) :
    Except (GitError × RepoState) RepoState :=
  match dictLookup pr_id s.pr_map with
  | none => .error (.unknownPR pr_id, s)
  | some pr =>
    if pr.status ≠ "open" then .error (.invalidState pr_id, s)
    else .ok (updatePr pr_id (fun p => { p with status := "rejected", closed_at := some time }) s)

/-- `Repository.cancel_pull_request(pr_id)`. -/
def cancelPrOp (time : Nat) (pr_id : String) (s : RepoState) :
    Except (GitError × RepoState) RepoState :=
  match dictLookup pr_id s.pr_map with
  | none => .error (.unknownPR pr_id, s)
  | some pr =>
    if pr.status ≠ "open" then .error (.invalidState pr_id, s)
    else .ok (updatePr pr_id (fun p => { p with status := "cancelled", closed_at := some time }) s)

/-- `Repository.tag_pull_request(pr_id, tag)` — allowed in any status. -/
def tagPrOp (pr_id tag : String) (s : RepoState) :
    Except (GitError × RepoState) RepoState :=
  match dictLookup pr_id s.pr_map with
  | none => .error (.unknownPR pr_id, s)
  | some _ => .ok (updatePr pr_id (fun p => { p with tags := setInsert tag p.tags }) s)

/-- `Repository.clear_pull_requests()` — empties queue and index, keeps the counter. -/
def clearPrsOp (s : RepoState) : RepoState :=
  { s with pull_requests := [], pr_map := [] }

/-! ## The operation alphabet and reachability -/

/-- One public mutating operation, with all clock reads made explicit. -/
inductive Op where
  | add (filename content : String)
  | commit (time : Nat) (message author : String)
  | branch (name : String)
  | checkout (name : String)
  | checkoutCommit (id : String)
  | createPR (time : Nat) (title description source target author : String)
  | reviewPR (pr_id reviewer : String)
  | approvePR (time : Nat) (pr_id : String)
  | rejectPR (time : Nat) (pr_id : String)
  | cancelPR (time : Nat) (pr_id : String)
  | tagPR (pr_id tag : String)
  | clearPRs
deriving DecidableEq, Repr

/-- Run one operation; a raised error leaves the object in the state it
had at the raise (which, in this source, is the input state except for
the working-directory write in `add`). -/
def execOp (hash : String → String) (s : RepoState) : Op → RepoState
  | .add f c =>
    match addOp hash f c s with
    | .ok s' => s'
    | .error (_, s') => s'
  | .commit t m a =>
    match commitOp hash t m a s with
    | .ok (_, s') => s'
    | .error (_, s') => s'
  | .branch n =>
    match branchOp n s with
    | .ok s' => s'
    | .error (_, s') => s'
  | .checkout n =>
    match checkoutOp n s with
    | .ok s' => s'
    | .error (_, s') => s'
  | .checkoutCommit i =>
    match checkoutCommitOp i s with
    | .ok s' => s'
    | .error (_, s') => s'
  | .createPR t ti d sb tb au =>
    match createPrOp t ti d sb tb au s with
    | .ok (_, s') => s'
    | .error (_, s') => s'
  | .reviewPR p r =>
    match reviewPrOp p r s with
    | .ok s' => s'
    | .error (_, s') => s'
  | .approvePR t p =>
    match approvePrOp t p s with
    | .ok s' => s'
    | .error (_, s') => s'
  | .rejectPR t p =>
    match rejectPrOp t p s with
    | .ok s' => s'
    | .error (_, s') => s'
  | .cancelPR t p =>
    match cancelPrOp t p s with
    | .ok s' => s'
    | .error (_, s') => s'
  | .tagPR p tg =>
    match tagPrOp p tg s with
    | .ok s' => s'
    | .error (_, s') => s'
  | .clearPRs => clearPrsOp s

/-- Run a sequence of operations. -/
def execOps (hash : String → String) (s : RepoState) (ops : List Op) : RepoState :=
  ops.foldl (execOp hash) s

/-- A state is reachable when some operation sequence produces it from a
fresh repository. -/
def Reachable (hash : String → String) (s : RepoState) : Prop :=
  ∃ ops, execOps hash initState ops = s

/-- The per-step collision-freedom condition: a successful commit must
compute an id not already present in the commit graph — the behaviour of
a collision-free hash such as SHA-1 in practice. -/
def stepFresh (hash : String → String) (s : RepoState) : Op → Bool
  | .commit t m a =>
    if s.staging_stack = [] then true
    else decide (commitIdOf hash t m a s ∉ dictKeys s.commits)
  | _ => true

/-- `freshRun hash s ops` holds when every commit along the run is
collision-free in the sense of `stepFresh`. -/
def freshRun (hash : String → String) : RepoState → List Op → Bool
  | _, [] => true
  | s, op :: ops => stepFresh hash s op && freshRun hash (execOp hash s op) ops

/-- One parent step in the commit graph: `b` is the recorded parent of
the commit stored under id `a`. -/
def ParentRel (commits : List (String × Commit)) (a b : String) : Prop :=
  ∃ c, dictLookup a commits = some c ∧ c.parent_id = some b

/-- The commit dict in insertion order is a well-founded graph: ids are
distinct and every commit's parent id occurs strictly earlier. -/
structure GraphWf (commits : List (String × Commit)) : Prop where
  nodup : (dictKeys commits).Nodup
  parents : ∀ (i : Nat) (h : i < commits.length) (p : String),
    (commits.get ⟨i, h⟩).2.parent_id = some p →
    p ∈ dictKeys (commits.take i)

/-- Well-formedness of the graph-relevant fields of a repository state. -/
structure StateWf (s : RepoState) : Prop where
  graph : GraphWf s.commits
  headWf : ∀ c, s.head = some c → c ∈ dictKeys s.commits
  branchWf : ∀ b ptr c, dictLookup b s.branches = some ptr → ptr = some c →
    c ∈ dictKeys s.commits

/-! ## Abbreviations used by the proofs -/

/-- The new commit record built by a successful `commit` on state `s`. -/
def newCommitOf (hash : String → String) (time : Nat) (message author_email : String)
    (s : RepoState) : Commit :=
  { id := commitIdOf hash time message author_email s, message := message,
    timestamp := time, author_email := author_email, parent_id := s.head,
    changes := materializeChanges s.staging_stack, branch := s.current_branch }

/-- The state after a successful `commit` on state `s`. -/
def commitResultState (hash : String → String) (time : Nat) (message author_email : String)
    (s : RepoState) : RepoState :=
  { s with
    commits := dictInsert (commitIdOf hash time message author_email s)
      (newCommitOf hash time message author_email s) s.commits,
    head := some (commitIdOf hash time message author_email s),
    branches :=
      if s.detached_head then s.branches
      else dictInsert s.current_branch
        (some (commitIdOf hash time message author_email s)) s.branches,
    staging_stack := [] }

/-- The branch/head coherence invariant of claim C1. -/
def BranchHeadInv (s : RepoState) : Prop :=
  s.detached_head = false → dictLookup s.current_branch s.branches = some s.head

/-- The digit list built by `Nat.repr`, as a well-founded recursion that
is easier to reason about than core's fuelled `Nat.toDigitsCore`. -/
def tdigits (n : Nat) : List Char :=
  if h : n / 10 = 0 then [Nat.digitChar (n % 10)]
  else tdigits (n / 10) ++ [Nat.digitChar (n % 10)]
decreasing_by
  exact Nat.div_lt_self (Nat.pos_of_ne_zero fun h0 => h (by simp [h0])) (by decide)

/-- Invariant of the pull-request engine: every id in the index is
`PR-<n>` for some `1 ≤ n ≤ pr_counter`, index entries carry their own
key as `id`, every queued PR is the object its id resolves to in the
index, and index keys are distinct. -/
structure PrInv (s : RepoState) : Prop where
  ids : ∀ k pr, dictLookup k s.pr_map = some pr →
    ∃ n, 1 ≤ n ∧ n ≤ s.pr_counter ∧ k = "PR-" ++ Nat.repr n
  idEq : ∀ k pr, dictLookup k s.pr_map = some pr → pr.id = k
  queueMap : ∀ pr ∈ s.pull_requests, dictLookup pr.id s.pr_map = some pr
  keysNodup : (dictKeys s.pr_map).Nodup

/-! ## Basic lemmas about the dict and set primitives -/

theorem dictLookup_insert {β : Type} (k k' : String) (v : β) (d : List (String × β)) :
    dictLookup k (dictInsert k' v d) = if k' = k then some v else dictLookup k d := by
  induction d with
  | nil => simp [dictInsert, dictLookup]
  | cons hd tl ih =>
    obtain ⟨k₀, v₀⟩ := hd
    by_cases h0 : k₀ = k'
    · subst h0
      by_cases h1 : k₀ = k <;> simp [dictInsert, dictLookup, h1]
    · by_cases h1 : k₀ = k
      · subst h1
        have h2 : ¬ k' = k₀ := fun h2 => h0 h2.symm
        simp [dictInsert, dictLookup, h0, h2]
      · simp [dictInsert, dictLookup, h0, h1, ih]

theorem dictLookup_insert_self {β : Type} (k : String) (v : β) (d : List (String × β)) :
    dictLookup k (dictInsert k v d) = some v := by
  simp [dictLookup_insert]

theorem dictLookup_insert_ne {β : Type} {k k' : String} (v : β) (d : List (String × β))
    (h : k' ≠ k) : dictLookup k (dictInsert k' v d) = dictLookup k d := by
  simp [dictLookup_insert, h]

theorem mem_dictKeys_of_lookup {β : Type} {k : String} {v : β} {d : List (String × β)}
    (h : dictLookup k d = some v) : k ∈ dictKeys d := by
  induction d with
  | nil => simp [dictLookup] at h
  | cons hd tl ih =>
    obtain ⟨k₀, v₀⟩ := hd
    by_cases h0 : k₀ = k
    · subst h0; simp [dictKeys]
    · simp only [dictLookup, if_neg h0] at h
      simp [dictKeys] at ih ⊢
      exact Or.inr (ih h)

theorem lookup_isSome_of_mem_dictKeys {β : Type} {k : String} {d : List (String × β)}
    (h : k ∈ dictKeys d) : ∃ v, dictLookup k d = some v := by
  induction d with
  | nil => simp [dictKeys] at h
  | cons hd tl ih =>
    obtain ⟨k₀, v₀⟩ := hd
    by_cases h0 : k₀ = k
    · subst h0; exact ⟨v₀, by simp [dictLookup]⟩
    · simp [dictKeys, Ne.symm h0] at h
      simpa [dictLookup, h0] using ih (by simpa [dictKeys] using h)

theorem dictKeys_insert {β : Type} (k : String) (v : β) (d : List (String × β)) :
    dictKeys (dictInsert k v d) =
      if k ∈ dictKeys d then dictKeys d else dictKeys d ++ [k] := by
  induction d with
  | nil => simp [dictInsert, dictKeys]
  | cons hd tl ih =>
    obtain ⟨k₀, v₀⟩ := hd
    by_cases h0 : k₀ = k
    · subst h0; simp [dictInsert, dictKeys]
    · simp only [dictInsert, if_neg h0, dictKeys, List.map_cons] at ih ⊢
      rw [ih]
      by_cases hm : k ∈ List.map Prod.fst tl <;>
        simp [hm, Ne.symm h0, dictKeys]

theorem dictInsert_of_not_mem {β : Type} {k : String} (v : β) {d : List (String × β)}
    (h : k ∉ dictKeys d) : dictInsert k v d = d ++ [(k, v)] := by
  induction d with
  | nil => simp [dictInsert]
  | cons hd tl ih =>
    obtain ⟨k₀, v₀⟩ := hd
    simp [dictKeys] at h
    push_neg at h
    simp [dictInsert, Ne.symm h.1, ih (by simp [dictKeys, h.2])]

theorem mem_setInsert (x y : String) (s : List String) :
    y ∈ setInsert x s ↔ y ∈ s ∨ y = x := by
  unfold setInsert
  by_cases h : x ∈ s
  · simp [h]; intro hy; subst hy; simp [h]
  · simp [h, or_comm]

theorem setInsert_of_mem {x : String} {s : List String} (h : x ∈ s) :
    setInsert x s = s := by
  simp [setInsert, h]

theorem mem_setUnion (y : String) (s xs : List String) :
    y ∈ setUnion s xs ↔ y ∈ s ∨ y ∈ xs := by
  induction xs generalizing s with
  | nil => simp [setUnion]
  | cons x rest ih =>
    simp only [setUnion, List.foldl_cons] at ih ⊢
    rw [ih (setInsert x s), mem_setInsert]
    constructor
    · rintro (⟨h | h⟩ | h)
      · exact Or.inl h
      · exact Or.inr (by simp [h])
      · exact Or.inr (by simp [h])
    · rintro (h | h)
      · exact Or.inl (Or.inl h)
      · rcases List.mem_cons.mp h with h | h
        · exact Or.inl (Or.inr h)
        · exact Or.inr h

/-! ## Frame lemmas: which fields each operation can touch -/

theorem addOp_shape (hash : String → String) (f c : String) (s : RepoState) :
    (∃ wd, addOp hash f c s = .error (.keyError, { s with working_directory := wd })) ∨
    (∃ wd st, addOp hash f c s = .ok { s with working_directory := wd, staging_stack := st }) := by
  simp only [addOp]
  repeat' split
  all_goals first
    | exact Or.inl ⟨_, rfl⟩
    | exact Or.inr ⟨_, _, rfl⟩

theorem execOp_add_shape (hash : String → String) (f c : String) (s : RepoState) :
    ∃ wd st, execOp hash s (.add f c) =
      { s with working_directory := wd, staging_stack := st } := by
  rcases addOp_shape hash f c s with ⟨wd, h⟩ | ⟨wd, st, h⟩
  · exact ⟨wd, s.staging_stack, by simp [execOp, h]⟩
  · exact ⟨wd, st, by simp [execOp, h]⟩

theorem commitOp_ok (hash : String → String) (t : Nat) (m a : String) (s : RepoState)
    (h : s.staging_stack ≠ []) :
    commitOp hash t m a s =
      .ok (commitIdOf hash t m a s, commitResultState hash t m a s) := by
  simp only [commitOp, if_neg h, commitResultState, newCommitOf]

theorem execOp_commit_shape (hash : String → String) (t : Nat) (m a : String) (s : RepoState) :
    execOp hash s (.commit t m a) = s ∨
    ∃ cm br hd, execOp hash s (.commit t m a) =
      { s with commits := cm, branches := br, head := hd, staging_stack := [] } := by
  by_cases h : s.staging_stack = []
  · exact Or.inl (by simp [execOp, commitOp, h])
  · have h2 : execOp hash s (.commit t m a) = commitResultState hash t m a s := by
      simp [execOp, commitOp_ok hash t m a s h]
    exact Or.inr ⟨_, _, _, h2⟩

theorem branchOp_shape (n : String) (s : RepoState) :
    branchOp n s = .error (.branchExists n, s) ∨
    branchOp n s = .ok { s with branches := dictInsert n s.head s.branches } := by
  by_cases h : n ∈ dictKeys s.branches
  · exact Or.inl (by simp [branchOp, h])
  · exact Or.inr (by simp [branchOp, h])

theorem execOp_branch_shape (hash : String → String) (n : String) (s : RepoState) :
    execOp hash s (.branch n) = s ∨
    ∃ br, execOp hash s (.branch n) = { s with branches := br } := by
  rcases branchOp_shape n s with h | h
  · exact Or.inl (by simp [execOp, h])
  · have h2 : execOp hash s (.branch n) =
        { s with branches := dictInsert n s.head s.branches } := by
      simp [execOp, h]
    exact Or.inr ⟨_, h2⟩

theorem checkoutOp_shape (n : String) (s : RepoState) :
    (∃ e, checkoutOp n s = .error (e, s)) ∨
    ∃ ptr wd, dictLookup n s.branches = some ptr ∧
      checkoutOp n s = .ok
        { s with current_branch := n, head := ptr,
                 detached_head := false, working_directory := wd, staging_stack := [] } := by
  rcases hb : dictLookup n s.branches with _ | ptr
  · exact Or.inl ⟨.unknownBranch n, by simp [checkoutOp, hb]⟩
  · by_cases hs : s.staging_stack ≠ []
    · exact Or.inl ⟨.uncommittedChanges, by simp [checkoutOp, hb, hs]⟩
    · refine Or.inr ⟨ptr,
        (match ptr with
         | some h =>
           (match dictLookup h s.commits with
            | some c => c.changes
            | none => [])
         | none => []), rfl, ?_⟩
      simp only [checkoutOp, hb, if_neg hs]
      cases ptr <;> rfl

theorem execOp_checkout_shape (hash : String → String) (n : String) (s : RepoState) :
    execOp hash s (.checkout n) = s ∨
    ∃ ptr wd, execOp hash s (.checkout n) =
      { s with current_branch := n, head := ptr, detached_head := false,
               working_directory := wd, staging_stack := [] } := by
  rcases checkoutOp_shape n s with ⟨e, h⟩ | ⟨ptr, wd, _, h⟩
  · exact Or.inl (by simp [execOp, h])
  · exact Or.inr ⟨ptr, wd, by simp [execOp, h]⟩

theorem checkoutCommitOp_shape (i : String) (s : RepoState) :
    (∃ e, checkoutCommitOp i s = .error (e, s)) ∨
    ∃ wd, checkoutCommitOp i s = .ok
      { s with head := some i, detached_head := true,
               working_directory := wd, staging_stack := [] } := by
  rcases hc : dictLookup i s.commits with _ | c
  · exact Or.inl ⟨.unknownCommit i, by simp [checkoutCommitOp, hc]⟩
  · by_cases hs : s.staging_stack ≠ []
    · exact Or.inl ⟨.uncommittedChanges, by simp [checkoutCommitOp, hc, hs]⟩
    · refine Or.inr ⟨c.changes, ?_⟩
      simp only [checkoutCommitOp, hc, if_neg hs]

theorem execOp_checkoutCommit_shape (hash : String → String) (i : String) (s : RepoState) :
    execOp hash s (.checkoutCommit i) = s ∨
    ∃ wd, execOp hash s (.checkoutCommit i) =
      { s with head := some i, detached_head := true,
               working_directory := wd, staging_stack := [] } := by
  rcases checkoutCommitOp_shape i s with ⟨e, h⟩ | ⟨wd, h⟩
  · exact Or.inl (by simp [execOp, h])
  · exact Or.inr ⟨wd, by simp [execOp, h]⟩

theorem createPrOp_shape (t : Nat) (ti d sb tb au : String) (s : RepoState) :
    (∃ e, createPrOp t ti d sb tb au s = .error (e, s)) ∨
    ∃ pid pr, createPrOp t ti d sb tb au s = .ok (pid,
      { s with pr_counter := s.pr_counter + 1,
               pull_requests := s.pull_requests ++ [pr],
               pr_map := dictInsert pid pr s.pr_map }) := by
  simp only [createPrOp]
  repeat' split
  all_goals first
    | exact Or.inl ⟨_, rfl⟩
    | exact Or.inr ⟨_, _, rfl⟩

theorem execOp_createPR_shape (hash : String → String) (t : Nat)
    (ti d sb tb au : String) (s : RepoState) :
    execOp hash s (.createPR t ti d sb tb au) = s ∨
    ∃ pid pr, execOp hash s (.createPR t ti d sb tb au) =
      { s with pr_counter := s.pr_counter + 1,
               pull_requests := s.pull_requests ++ [pr],
               pr_map := dictInsert pid pr s.pr_map } := by
  rcases createPrOp_shape t ti d sb tb au s with ⟨e, h⟩ | ⟨pid, pr, h⟩
  · exact Or.inl (by simp [execOp, h])
  · exact Or.inr ⟨pid, pr, by simp [execOp, h]⟩

theorem updatePr_shape (pr_id : String) (f : PullRequest → PullRequest) (s : RepoState) :
    ∃ q pm, updatePr pr_id f s = { s with pull_requests := q, pr_map := pm } :=
  ⟨_, _, rfl⟩

theorem reviewPrOp_shape (p r : String) (s : RepoState) :
    (∃ e, reviewPrOp p r s = .error (e, s)) ∨
    ∃ f, reviewPrOp p r s = .ok (updatePr p f s) := by
  simp only [reviewPrOp]
  repeat' split
  all_goals first
    | exact Or.inl ⟨_, rfl⟩
    | exact Or.inr ⟨_, rfl⟩

theorem approvePrOp_shape (t : Nat) (p : String) (s : RepoState) :
    (∃ e, approvePrOp t p s = .error (e, s)) ∨
    ∃ f, approvePrOp t p s = .ok (updatePr p f s) := by
  simp only [approvePrOp]
  repeat' split
  all_goals first
    | exact Or.inl ⟨_, rfl⟩
    | exact Or.inr ⟨_, rfl⟩

theorem rejectPrOp_shape (t : Nat) (p : String) (s : RepoState) :
    (∃ e, rejectPrOp t p s = .error (e, s)) ∨
    ∃ f, rejectPrOp t p s = .ok (updatePr p f s) := by
  simp only [rejectPrOp]
  repeat' split
  all_goals first
    | exact Or.inl ⟨_, rfl⟩
    | exact Or.inr ⟨_, rfl⟩

theorem cancelPrOp_shape (t : Nat) (p : String) (s : RepoState) :
    (∃ e, cancelPrOp t p s = .error (e, s)) ∨
    ∃ f, cancelPrOp t p s = .ok (updatePr p f s) := by
  simp only [cancelPrOp]
  repeat' split
  all_goals first
    | exact Or.inl ⟨_, rfl⟩
    | exact Or.inr ⟨_, rfl⟩

theorem tagPrOp_shape (p tg : String) (s : RepoState) :
    (∃ e, tagPrOp p tg s = .error (e, s)) ∨
    ∃ f, tagPrOp p tg s = .ok (updatePr p f s) := by
  simp only [tagPrOp]
  repeat' split
  all_goals first
    | exact Or.inl ⟨_, rfl⟩
    | exact Or.inr ⟨_, rfl⟩

theorem execOp_prMut_shape (hash : String → String) (s : RepoState) (op : Op)
    (hop : (∃ p r, op = .reviewPR p r) ∨ (∃ t p, op = .approvePR t p) ∨
           (∃ t p, op = .rejectPR t p) ∨ (∃ t p, op = .cancelPR t p) ∨
           (∃ p tg, op = .tagPR p tg) ∨ op = .clearPRs) :
    ∃ q pm, execOp hash s op = { s with pull_requests := q, pr_map := pm } := by
  rcases hop with ⟨p, r, rfl⟩ | ⟨t, p, rfl⟩ | ⟨t, p, rfl⟩ | ⟨t, p, rfl⟩ | ⟨p, tg, rfl⟩ | rfl
  · rcases reviewPrOp_shape p r s with ⟨e, h⟩ | ⟨f, h⟩
    · have h2 : execOp hash s (.reviewPR p r) = s := by simp [execOp, h]
      exact ⟨_, _, h2⟩
    · have h2 : execOp hash s (.reviewPR p r) = updatePr p f s := by simp [execOp, h]
      exact ⟨_, _, h2⟩
  · rcases approvePrOp_shape t p s with ⟨e, h⟩ | ⟨f, h⟩
    · have h2 : execOp hash s (.approvePR t p) = s := by simp [execOp, h]
      exact ⟨_, _, h2⟩
    · have h2 : execOp hash s (.approvePR t p) = updatePr p f s := by simp [execOp, h]
      exact ⟨_, _, h2⟩
  · rcases rejectPrOp_shape t p s with ⟨e, h⟩ | ⟨f, h⟩
    · have h2 : execOp hash s (.rejectPR t p) = s := by simp [execOp, h]
      exact ⟨_, _, h2⟩
    · have h2 : execOp hash s (.rejectPR t p) = updatePr p f s := by simp [execOp, h]
      exact ⟨_, _, h2⟩
  · rcases cancelPrOp_shape t p s with ⟨e, h⟩ | ⟨f, h⟩
    · have h2 : execOp hash s (.cancelPR t p) = s := by simp [execOp, h]
      exact ⟨_, _, h2⟩
    · have h2 : execOp hash s (.cancelPR t p) = updatePr p f s := by simp [execOp, h]
      exact ⟨_, _, h2⟩
  · rcases tagPrOp_shape p tg s with ⟨e, h⟩ | ⟨f, h⟩
    · have h2 : execOp hash s (.tagPR p tg) = s := by simp [execOp, h]
      exact ⟨_, _, h2⟩
    · have h2 : execOp hash s (.tagPR p tg) = updatePr p f s := by simp [execOp, h]
      exact ⟨_, _, h2⟩
  · have h2 : execOp hash s .clearPRs = { s with pull_requests := [], pr_map := [] } := by
      simp [execOp, clearPrsOp]
    exact ⟨_, _, h2⟩

/-! ## The staging dance of `add` equals remove-then-push -/

theorem siftStack_eq (filename : String) (l : List StagedFile) :
    ∀ temp, siftStack filename l temp =
      (l.filter (fun f => decide (f.path ≠ filename))).reverse ++ temp := by
  induction l with
  | nil => intro temp; simp [siftStack]
  | cons x xs ih =>
    intro temp
    by_cases hx : x.path = filename
    · simp [siftStack, hx, ih, List.filter_cons]
    · simp [siftStack, hx, ih, List.filter_cons]

theorem unwindStack_eq (l : List StagedFile) :
    ∀ dst, unwindStack l dst = l.reverse ++ dst := by
  induction l with
  | nil => intro dst; simp [unwindStack]
  | cons x xs ih =>
    intro dst
    simp [unwindStack, ih, List.append_assoc]

theorem unwind_sift (filename : String) (l : List StagedFile) :
    unwindStack (siftStack filename l []) [] =
      l.filter (fun f => decide (f.path ≠ filename)) := by
  rw [siftStack_eq, unwindStack_eq]
  simp

theorem addOp_ok_spec (hash : String → String) (f c : String) (s s' : RepoState)
    (h : addOp hash f c s = .ok s') :
    s'.working_directory = dictInsert f c s.working_directory ∧
    (∃ sf : StagedFile,
      s'.staging_stack = sf :: s.staging_stack.filter (fun g => decide (g.path ≠ f)) ∧
      sf.path = f ∧ sf.content = c) ∧
    s'.commits = s.commits ∧ s'.branches = s.branches ∧ s'.head = s.head ∧
    s'.current_branch = s.current_branch ∧ s'.detached_head = s.detached_head ∧
    s'.pull_requests = s.pull_requests ∧ s'.pr_counter = s.pr_counter ∧
    s'.pr_map = s.pr_map := by
  simp only [addOp] at h
  split at h
  · injection h with h
    subst h
    refine ⟨rfl, ?_, rfl, rfl, rfl, rfl, rfl, rfl, rfl, rfl⟩
    simp only [unwind_sift]
    exact ⟨_, rfl, rfl, rfl⟩
  · split at h
    · exact absurd h (by simp)
    · injection h with h
      subst h
      refine ⟨rfl, ?_, rfl, rfl, rfl, rfl, rfl, rfl, rfl, rfl⟩
      simp only [unwind_sift]
      exact ⟨_, rfl, rfl, rfl⟩

theorem addOp_error_spec (hash : String → String) (f c : String) (s : RepoState)
    (e : GitError) (s0 : RepoState) (h : addOp hash f c s = .error (e, s0)) :
    e = .keyError ∧
    s0 = { s with working_directory := dictInsert f c s.working_directory } := by
  simp only [addOp] at h
  split at h
  · exact absurd h (by simp)
  · split at h
    · injection h with h
      exact ⟨(congrArg Prod.fst h).symm, (congrArg Prod.snd h).symm⟩
    · exact absurd h (by simp)

/-! ## Reachability is closed under operations -/

theorem reachable_init (hash : String → String) : Reachable hash initState :=
  ⟨[], rfl⟩

theorem reachable_execOp (hash : String → String) (s : RepoState) (op : Op)
    (h : Reachable hash s) : Reachable hash (execOp hash s op) := by
  obtain ⟨ops, rfl⟩ := h
  exact ⟨ops ++ [op], by simp [execOps, List.foldl_append]⟩

/-! ## C8: the staging area is duplicate-free by path -/

theorem stagingNodup_step (hash : String → String) (s : RepoState) (op : Op)
    (h : (s.staging_stack.map (·.path)).Nodup) :
    ((execOp hash s op).staging_stack.map (·.path)).Nodup := by
  cases op with
  | add f c =>
    rcases hres : addOp hash f c s with ⟨e, s0⟩ | s'
    · obtain ⟨_, hs0⟩ := addOp_error_spec hash f c s e s0 hres
      have he : execOp hash s (.add f c) = s0 := by simp [execOp, hres]
      rw [he, hs0]
      exact h
    · obtain ⟨hwd, ⟨sf, hst, hp, hc⟩, _⟩ := addOp_ok_spec hash f c s s' hres
      have he : execOp hash s (.add f c) = s' := by simp [execOp, hres]
      rw [he, hst]
      simp only [List.map_cons]
      refine List.nodup_cons.mpr ⟨?_, ?_⟩
      · intro hmem
        obtain ⟨g, hg, hgp⟩ := List.mem_map.mp hmem
        have hne := List.of_mem_filter hg
        simp only [decide_eq_true_eq] at hne
        exact hne (hgp.trans hp)
      · exact List.Nodup.sublist ((List.filter_sublist _).map _) h
  | commit t m a =>
    rcases execOp_commit_shape hash t m a s with he | ⟨cm, br, hd, he⟩
    · rw [he]; exact h
    · rw [he]; simp
  | branch n =>
    rcases execOp_branch_shape hash n s with he | ⟨br, he⟩
    · rw [he]; exact h
    · rw [he]; exact h
  | checkout n =>
    rcases execOp_checkout_shape hash n s with he | ⟨ptr, wd, he⟩
    · rw [he]; exact h
    · rw [he]; simp
  | checkoutCommit i =>
    rcases execOp_checkoutCommit_shape hash i s with he | ⟨wd, he⟩
    · rw [he]; exact h
    · rw [he]; simp
  | createPR t ti d sb tb au =>
    rcases execOp_createPR_shape hash t ti d sb tb au s with he | ⟨pid, pr, he⟩
    · rw [he]; exact h
    · rw [he]; exact h
  | reviewPR p r =>
    obtain ⟨q, pm, he⟩ := execOp_prMut_shape hash s (.reviewPR p r) (Or.inl ⟨p, r, rfl⟩)
    rw [he]; exact h
  | approvePR t p =>
    obtain ⟨q, pm, he⟩ := execOp_prMut_shape hash s (.approvePR t p)
      (Or.inr (Or.inl ⟨t, p, rfl⟩))
    rw [he]; exact h
  | rejectPR t p =>
    obtain ⟨q, pm, he⟩ := execOp_prMut_shape hash s (.rejectPR t p)
      (Or.inr (Or.inr (Or.inl ⟨t, p, rfl⟩)))
    rw [he]; exact h
  | cancelPR t p =>
    obtain ⟨q, pm, he⟩ := execOp_prMut_shape hash s (.cancelPR t p)
      (Or.inr (Or.inr (Or.inr (Or.inl ⟨t, p, rfl⟩))))
    rw [he]; exact h
  | tagPR p tg =>
    obtain ⟨q, pm, he⟩ := execOp_prMut_shape hash s (.tagPR p tg)
      (Or.inr (Or.inr (Or.inr (Or.inr (Or.inl ⟨p, tg, rfl⟩)))))
    rw [he]; exact h
  | clearPRs =>
    obtain ⟨q, pm, he⟩ := execOp_prMut_shape hash s .clearPRs
      (Or.inr (Or.inr (Or.inr (Or.inr (Or.inr rfl)))))
    rw [he]; exact h

theorem stagingNodup_reachable (hash : String → String) (s : RepoState)
    (h : Reachable hash s) : (s.staging_stack.map (·.path)).Nodup := by
  obtain ⟨ops, rfl⟩ := h
  suffices hgen : ∀ s₀, (s₀.staging_stack.map (·.path)).Nodup →
      ((execOps hash s₀ ops).staging_stack.map (·.path)).Nodup by
    exact hgen initState (by simp [initState])
  induction ops with
  | nil => exact fun s₀ h₀ => h₀
  | cons op rest ih => exact fun s₀ h₀ => ih _ (stagingNodup_step hash s₀ op h₀)

/-- **C8.** Every reachable staging area is duplicate-free by path, this
is preserved by every operation, and a successful `add` replaces any
prior entry for the path — the new staging stack is a fresh entry on top
of the old stack with every entry for that path filtered out, the other
entries keeping their relative order. -/
theorem staging_duplicate_free_spec (hash : String → String) (s : RepoState)
    (hr : Reachable hash s) :
    ((s.staging_stack.map (·.path)).Nodup) ∧
    (∀ op, ((execOp hash s op).staging_stack.map (·.path)).Nodup) ∧
    (∀ f c s', addOp hash f c s = .ok s' →
      ∃ sf : StagedFile,
        s'.staging_stack = sf :: s.staging_stack.filter (fun g => decide (g.path ≠ f)) ∧
        sf.path = f ∧ sf.content = c) := by
  refine ⟨stagingNodup_reachable hash s hr, ?_, ?_⟩
  · exact fun op => stagingNodup_step hash s op (stagingNodup_reachable hash s hr)
  · intro f c s' hok
    exact (addOp_ok_spec hash f c s s' hok).2.1

/-- Witness for `staging_duplicate_free_spec`: stage `a.txt`, `b.txt`,
then re-stage `a.txt`; the stack holds one entry per path. -/
theorem staging_duplicate_free_spec_witness :
    ∃ sf : StagedFile,
      (execOps (fun _ => "h") initState
        [.add "a.txt" "1", .add "b.txt" "2"]).staging_stack.map (·.path) = ["b.txt", "a.txt"] ∧
      addOp (fun _ => "h") "a.txt" "3"
          (execOps (fun _ => "h") initState [.add "a.txt" "1", .add "b.txt" "2"]) =
        .ok (execOp (fun _ => "h")
          (execOps (fun _ => "h") initState [.add "a.txt" "1", .add "b.txt" "2"])
          (.add "a.txt" "3")) ∧
      (execOp (fun _ => "h")
          (execOps (fun _ => "h") initState [.add "a.txt" "1", .add "b.txt" "2"])
          (.add "a.txt" "3")).staging_stack =
        sf :: (execOps (fun _ => "h") initState
          [.add "a.txt" "1", .add "b.txt" "2"]).staging_stack.filter
            (fun g => decide (g.path ≠ "a.txt")) ∧
      sf.path = "a.txt" ∧ sf.content = "3" := by
  have hr : Reachable (fun _ => "h")
      (execOps (fun _ => "h") initState [.add "a.txt" "1", .add "b.txt" "2"]) :=
    ⟨[.add "a.txt" "1", .add "b.txt" "2"], rfl⟩
  have h := staging_duplicate_free_spec (fun _ => "h") _ hr
  have hok : addOp (fun _ => "h") "a.txt" "3"
      (execOps (fun _ => "h") initState [.add "a.txt" "1", .add "b.txt" "2"]) =
      .ok (execOp (fun _ => "h")
        (execOps (fun _ => "h") initState [.add "a.txt" "1", .add "b.txt" "2"])
        (.add "a.txt" "3")) := rfl
  obtain ⟨sf, h1, h2, h3⟩ := h.2.2 "a.txt" "3" _ hok
  exact ⟨sf, by decide, hok, h1, h2, h3⟩

/-! ## C10: add always writes the working directory and stages a fresh entry -/

/-- **C10.** `add(path, content)` always sets
`working_directory[path] = content` (it does so before anything else, so
this holds even on the impossible error path), and on success the staged
entry for that path sits on top of the staging stack with exactly the
staged content — even when the content is identical to the version in
the head commit. -/
theorem add_working_directory_spec (hash : String → String) (f c : String) (s : RepoState) :
    dictLookup f (execOp hash s (.add f c)).working_directory = some c ∧
    (∀ s', addOp hash f c s = .ok s' →
      s'.working_directory = dictInsert f c s.working_directory ∧
      ∃ sf : StagedFile, s'.staging_stack.head? = some sf ∧
        sf.path = f ∧ sf.content = c) := by
  constructor
  · rcases hres : addOp hash f c s with ⟨e, s0⟩ | s'
    · obtain ⟨_, hs0⟩ := addOp_error_spec hash f c s e s0 hres
      have he : execOp hash s (.add f c) = s0 := by simp [execOp, hres]
      rw [he, hs0]
      exact dictLookup_insert_self f c s.working_directory
    · obtain ⟨hwd, _, _⟩ := addOp_ok_spec hash f c s s' hres
      have he : execOp hash s (.add f c) = s' := by simp [execOp, hres]
      rw [he, hwd]
      exact dictLookup_insert_self f c s.working_directory
  · intro s' hok
    obtain ⟨hwd, ⟨sf, hst, hp, hc⟩, _⟩ := addOp_ok_spec hash f c s s' hok
    exact ⟨hwd, sf, by rw [hst]; rfl, hp, hc⟩

/-- Witness for `add_working_directory_spec`: re-stage `a.txt` with the
very content the head commit already records; the working directory is
written and a fresh staged entry still appears. -/
theorem add_working_directory_spec_witness :
    dictLookup "a.txt"
      (execOp (fun _ => "c1")
        (execOps (fun _ => "c1") initState [.add "a.txt" "1", .commit 0 "m" "e@x"])
        (.add "a.txt" "1")).working_directory = some "1" ∧
    ∃ s' sf, addOp (fun _ => "c1") "a.txt" "1"
        (execOps (fun _ => "c1") initState [.add "a.txt" "1", .commit 0 "m" "e@x"]) =
        .ok s' ∧
      s'.staging_stack.head? = some sf ∧ sf.path = "a.txt" ∧ sf.content = "1" := by
  have h := add_working_directory_spec (fun _ => "c1") "a.txt" "1"
    (execOps (fun _ => "c1") initState [.add "a.txt" "1", .commit 0 "m" "e@x"])
  have hok : addOp (fun _ => "c1") "a.txt" "1"
      (execOps (fun _ => "c1") initState [.add "a.txt" "1", .commit 0 "m" "e@x"]) =
      .ok (execOp (fun _ => "c1")
        (execOps (fun _ => "c1") initState [.add "a.txt" "1", .commit 0 "m" "e@x"])
        (.add "a.txt" "1")) := rfl
  obtain ⟨hwd, sf, hh, hp, hc⟩ := h.2 _ hok
  exact ⟨h.1, _, sf, hok, hh, hp, hc⟩

/-! ## C3: the commit id is a deterministic function of its five inputs -/

theorem dictLookup_cons_self {β : Type} (k : String) (v : β) (t : List (String × β)) :
    dictLookup k ((k, v) :: t) = some v := by
  simp [dictLookup]

theorem dictLookup_eq_none_of_not_mem {β : Type} {k : String} {d : List (String × β)}
    (h : k ∉ dictKeys d) : dictLookup k d = none := by
  induction d with
  | nil => rfl
  | cons hd t ih =>
    obtain ⟨k₀, v₀⟩ := hd
    simp [dictKeys] at h
    push_neg at h
    simp [dictLookup, Ne.symm h.1, ih (by simp [dictKeys, h.2])]

theorem exists_split_of_lookup {β : Type} {k : String} {v : β} {d : List (String × β)}
    (h : dictLookup k d = some v) :
    ∃ l1 l2, d = l1 ++ (k, v) :: l2 ∧ k ∉ dictKeys l1 := by
  induction d with
  | nil => simp [dictLookup] at h
  | cons hd t ih =>
    obtain ⟨k₀, v₀⟩ := hd
    by_cases h0 : k₀ = k
    · subst h0
      rw [dictLookup_cons_self] at h
      injection h with h
      subst h
      exact ⟨[], t, rfl, by simp [dictKeys]⟩
    · simp only [dictLookup, if_neg h0] at h
      obtain ⟨l1, l2, rfl, hnk⟩ := ih h
      exact ⟨(k₀, v₀) :: l1, l2, rfl, by
        simp [dictKeys] at hnk ⊢
        exact ⟨fun hh => h0 hh.symm, hnk⟩⟩

theorem dictLookup_append_skip {β : Type} {k k' : String} (hne : k ≠ k')
    (l1 : List (String × β)) (v : β) (l2 : List (String × β)) :
    dictLookup k' (l1 ++ (k, v) :: l2) = dictLookup k' (l1 ++ l2) := by
  induction l1 with
  | nil => simp [dictLookup, hne]
  | cons hd t ih =>
    obtain ⟨k₀, v₀⟩ := hd
    by_cases h0 : k₀ = k'
    · simp [dictLookup, h0]
    · simp [dictLookup, h0, ih]

theorem perm_of_dictLookup_eq {β : Type} {d1 d2 : List (String × β)}
    (h1 : (dictKeys d1).Nodup) (h2 : (dictKeys d2).Nodup)
    (h : ∀ k, dictLookup k d1 = dictLookup k d2) : d1.Perm d2 := by
  induction d1 generalizing d2 with
  | nil =>
    cases d2 with
    | nil => exact List.Perm.refl _
    | cons hd t =>
      obtain ⟨k, v⟩ := hd
      have := h k
      rw [dictLookup_cons_self] at this
      simp [dictLookup] at this
  | cons hd t1 ih =>
    obtain ⟨k, v⟩ := hd
    have hk : dictLookup k d2 = some v := by
      rw [← h k, dictLookup_cons_self]
    obtain ⟨l1, l2, rfl, hnk⟩ := exists_split_of_lookup hk
    have hkeys2 : dictKeys (l1 ++ (k, v) :: l2) =
        dictKeys l1 ++ k :: dictKeys l2 := by
      simp [dictKeys]
    rw [hkeys2] at h2
    have hknotl2 : k ∉ dictKeys l2 :=
      (List.nodup_cons.mp (h2.sublist (List.sublist_append_right _ _))).1
    have h1' : (k :: dictKeys t1).Nodup := h1
    have hkt1 : k ∉ dictKeys t1 := (List.nodup_cons.mp h1').1
    have ht1nodup : (dictKeys t1).Nodup := (List.nodup_cons.mp h1').2
    have hkeysapp : dictKeys (l1 ++ l2) = dictKeys l1 ++ dictKeys l2 := by
      simp [dictKeys]
    have hrest : (dictKeys (l1 ++ l2)).Nodup := by
      rw [hkeysapp]
      have hsub : List.Sublist (dictKeys l1 ++ dictKeys l2)
          (dictKeys l1 ++ k :: dictKeys l2) :=
        List.Sublist.append_left (List.sublist_cons_self k (dictKeys l2)) (dictKeys l1)
      exact List.Nodup.sublist hsub h2
    have hlook : ∀ k', dictLookup k' t1 = dictLookup k' (l1 ++ l2) := by
      intro k'
      by_cases hk' : k' = k
      · subst hk'
        have hnm : k' ∉ dictKeys (l1 ++ l2) := by
          rw [hkeysapp]
          simp only [List.mem_append]
          rintro (hm | hm)
          · exact hnk hm
          · exact hknotl2 hm
        rw [dictLookup_eq_none_of_not_mem hkt1, dictLookup_eq_none_of_not_mem hnm]
      · have hne : ¬ k = k' := fun e => hk' e.symm
        have hh := h k'
        simp only [dictLookup, if_neg hne] at hh
        rw [hh, dictLookup_append_skip hne l1 v l2]
    exact ((ih ht1nodup hrest hlook).cons (k, v)).trans List.perm_middle.symm

theorem dictKeys_insert_nodup {β : Type} (k : String) (v : β) (d : List (String × β))
    (h : (dictKeys d).Nodup) : (dictKeys (dictInsert k v d)).Nodup := by
  rw [dictKeys_insert]
  by_cases hm : k ∈ dictKeys d
  · simpa [hm] using h
  · simp [hm, h, List.nodup_append]

theorem materializeChanges_keys_nodup (st : List StagedFile) :
    (dictKeys (materializeChanges st)).Nodup := by
  suffices hgen : ∀ acc : List (String × String), (dictKeys acc).Nodup →
      (dictKeys (st.foldl (fun d f => dictInsert f.path f.content d) acc)).Nodup by
    exact hgen [] (by simp [dictKeys])
  induction st with
  | nil => exact fun acc h => h
  | cons f rest ih =>
    intro acc hacc
    exact ih _ (dictKeys_insert_nodup _ _ _ hacc)

theorem sortedItems_eq_of_perm {d1 d2 : List (String × String)} (h : d1.Perm d2) :
    sortedItems d1 = sortedItems d2 :=
  List.eq_of_perm_of_sorted
    ((List.perm_insertionSort pairLe d1).trans (h.trans (List.perm_insertionSort pairLe d2).symm))
    (List.sorted_insertionSort pairLe d1) (List.sorted_insertionSort pairLe d2)

theorem contentStr_congr (m : String) (t : Nat) (hd : Option String) (a : String)
    {c1 c2 : List (String × String)} (h : sortedItems c1 = sortedItems c2) :
    contentStr m t hd a c1 = contentStr m t hd a c2 := by
  unfold contentStr
  rw [h]

/-- **C3.** The commit id is a deterministic function of message,
timestamp, parent id, author and the staged path → content mapping: if
two states agree on head and on the materialized changes mapping (as a
map, independently of staging insertion order), any two successful
commits with the same message, timestamp and author yield the same id;
and the path/content pairs enter the hashed string in sorted order. -/
theorem commit_id_deterministic_spec (hash : String → String) (t : Nat) (m a : String)
    (s1 s2 : RepoState) (hhead : s1.head = s2.head)
    (hch : ∀ p, dictLookup p (materializeChanges s1.staging_stack) =
                dictLookup p (materializeChanges s2.staging_stack)) :
    commitIdOf hash t m a s1 = commitIdOf hash t m a s2 ∧
    List.Sorted pairLe (sortedItems (materializeChanges s1.staging_stack)) ∧
    (∀ cid1 st1 cid2 st2,
      commitOp hash t m a s1 = .ok (cid1, st1) →
      commitOp hash t m a s2 = .ok (cid2, st2) → cid1 = cid2) := by
  have hperm := perm_of_dictLookup_eq (materializeChanges_keys_nodup s1.staging_stack)
    (materializeChanges_keys_nodup s2.staging_stack) hch
  have hid : commitIdOf hash t m a s1 = commitIdOf hash t m a s2 := by
    unfold commitIdOf
    rw [hhead, contentStr_congr m t s2.head a (sortedItems_eq_of_perm hperm)]
  refine ⟨hid, List.sorted_insertionSort pairLe _, ?_⟩
  intro cid1 st1 cid2 st2 hok1 hok2
  have hs1 : s1.staging_stack ≠ [] := by
    intro hnil
    have : commitOp hash t m a s1 = .error (.emptyStaging, s1) := by simp [commitOp, hnil]
    rw [this] at hok1
    exact absurd hok1 (by simp)
  have hs2 : s2.staging_stack ≠ [] := by
    intro hnil
    have : commitOp hash t m a s2 = .error (.emptyStaging, s2) := by simp [commitOp, hnil]
    rw [this] at hok2
    exact absurd hok2 (by simp)
  rw [commitOp_ok hash t m a s1 hs1] at hok1
  rw [commitOp_ok hash t m a s2 hs2] at hok2
  injection hok1 with hok1
  injection hok2 with hok2
  have e1 : cid1 = commitIdOf hash t m a s1 := (congrArg Prod.fst hok1).symm
  have e2 : cid2 = commitIdOf hash t m a s2 := (congrArg Prod.fst hok2).symm
  rw [e1, e2, hid]

/-- Witness for `commit_id_deterministic_spec`: the same two files staged
in opposite orders produce the same commit id. -/
theorem commit_id_deterministic_spec_witness :
    commitIdOf (fun x => x) 7 "msg" "a@b"
        (execOps (fun x => x) initState [.add "a.txt" "1", .add "b.txt" "2"]) =
      commitIdOf (fun x => x) 7 "msg" "a@b"
        (execOps (fun x => x) initState [.add "b.txt" "2", .add "a.txt" "1"]) := by
  have hch : ∀ p, dictLookup p (materializeChanges
        (execOps (fun x => x) initState [.add "a.txt" "1", .add "b.txt" "2"]).staging_stack) =
      dictLookup p (materializeChanges
        (execOps (fun x => x) initState [.add "b.txt" "2", .add "a.txt" "1"]).staging_stack) := by
    intro p
    show dictLookup p [("b.txt", "2"), ("a.txt", "1")] =
      dictLookup p [("a.txt", "1"), ("b.txt", "2")]
    by_cases h1 : "b.txt" = p
    · by_cases h2 : "a.txt" = p
      · exact absurd (h1.trans h2.symm) (by decide)
      · simp [dictLookup, h1, h2]
    · by_cases h2 : "a.txt" = p
      · simp [dictLookup, h1, h2]
      · simp [dictLookup, h1, h2]
  exact (commit_id_deterministic_spec (fun x => x) 7 "msg" "a@b"
    (execOps (fun x => x) initState [.add "a.txt" "1", .add "b.txt" "2"])
    (execOps (fun x => x) initState [.add "b.txt" "2", .add "a.txt" "1"]) rfl hch).1

/-! ## C6: create_pull_request computes the source-minus-target commits -/

theorem walkParents_mem (commits : List (String × Commit)) :
    ∀ (fuel : Nat) (start : Option String) (l : List String),
      walkParents commits fuel start = some l →
      ∀ x ∈ l, ∃ c, dictLookup x commits = some c := by
  intro fuel
  induction fuel with
  | zero =>
    intro start l h x hx
    cases start with
    | none =>
      simp only [walkParents] at h
      injection h with h
      subst h
      simp at hx
    | some c => simp [walkParents] at h
  | succ n ih =>
    intro start l h x hx
    cases start with
    | none =>
      simp only [walkParents] at h
      injection h with h
      subst h
      simp at hx
    | some c =>
      simp only [walkParents] at h
      rcases hc : dictLookup c commits with _ | cm
      · simp [hc] at h
      · simp only [hc] at h
        rcases hrec : walkParents commits n cm.parent_id with _ | l'
        · rw [hrec] at h
          simp at h
        · rw [hrec] at h
          simp at h
          subst h
          rcases List.mem_cons.mp hx with rfl | hx'
          · exact ⟨cm, hc⟩
          · exact ih cm.parent_id l' hrec x hx'

theorem collectModified_ok (commits : List (String × Commit)) :
    ∀ (ids acc : List String),
      (∀ x ∈ ids, ∃ c, dictLookup x commits = some c) →
      ∃ mf, collectModified commits ids acc = some mf ∧
        ∀ x, x ∈ mf ↔ x ∈ acc ∨
          ∃ cid ∈ ids, ∃ c, dictLookup cid commits = some c ∧ x ∈ dictKeys c.changes := by
  intro ids
  induction ids with
  | nil =>
    intro acc _
    exact ⟨acc, rfl, fun x => by simp⟩
  | cons cid rest ih =>
    intro acc hall
    obtain ⟨c, hc⟩ := hall cid (by simp)
    obtain ⟨mf, hmf, hmem⟩ := ih (setUnion acc (dictKeys c.changes))
      (fun x hx => hall x (by simp [hx]))
    refine ⟨mf, by simp only [collectModified, hc, hmf], ?_⟩
    intro x
    rw [hmem x, mem_setUnion]
    constructor
    · rintro (⟨hx | hx⟩ | ⟨cid', hcid', c', hc', hx⟩)
      · exact Or.inl hx
      · exact Or.inr ⟨cid, by simp, c, hc, hx⟩
      · exact Or.inr ⟨cid', by simp [hcid'], c', hc', hx⟩
    · rintro (hx | ⟨cid', hcid', c', hc', hx⟩)
      · exact Or.inl (Or.inl hx)
      · rcases List.mem_cons.mp hcid' with rfl | hcid''
        · rw [hc] at hc'
          injection hc' with hc'
          subst hc'
          exact Or.inl (Or.inr hx)
        · exact Or.inr ⟨cid', hcid'', c', hc', hx⟩

theorem branchCommits_branch_mem {s : RepoState} {b : String} {l : List String}
    (h : branchCommits s b = some l) :
    ∃ ptr, dictLookup b s.branches = some ptr ∧
      walkParents s.commits (s.commits.length + 1) ptr = some l := by
  unfold branchCommits at h
  rcases hb : dictLookup b s.branches with _ | ptr
  · rw [hb] at h; simp at h
  · rw [hb] at h
    exact ⟨ptr, rfl, h⟩

/-- **C6.** On two existing branches, `create_pull_request` computes the
source branch's ancestor walk minus the commits reachable from the target
branch, preserving source order; it fails with the `NoChangesError` kind
exactly when that difference is empty, and otherwise the stored PR's
`commit_ids` equals the difference and its `modified_files` is the union
of the changed-file keys of those commits. -/
theorem create_pr_unique_commits_spec (t : Nat) (ti d au : String) (s : RepoState)
    (src tgt : String) (sc tc : List String)
    (hsc : branchCommits s src = some sc) (htc : branchCommits s tgt = some tc) :
    (sc.filter (fun c => c ∉ tc) = [] →
      createPrOp t ti d src tgt au s = .error (.noChanges, s)) ∧
    (sc.filter (fun c => c ∉ tc) ≠ [] →
      ∃ s' pr,
        createPrOp t ti d src tgt au s = .ok ("PR-" ++ Nat.repr (s.pr_counter + 1), s') ∧
        dictLookup ("PR-" ++ Nat.repr (s.pr_counter + 1)) s'.pr_map = some pr ∧
        pr.commit_ids = sc.filter (fun c => c ∉ tc) ∧
        (∀ f, f ∈ pr.modified_files ↔
          ∃ cid ∈ sc.filter (fun c => c ∉ tc), ∃ c,
            dictLookup cid s.commits = some c ∧ f ∈ dictKeys c.changes)) := by
  obtain ⟨ptrs, hbs, hws⟩ := branchCommits_branch_mem hsc
  obtain ⟨ptrt, hbt, hwt⟩ := branchCommits_branch_mem htc
  have hmems : src ∈ dictKeys s.branches := mem_dictKeys_of_lookup hbs
  have hmemt : tgt ∈ dictKeys s.branches := mem_dictKeys_of_lookup hbt
  constructor
  · intro hempty
    simp only [createPrOp, hmems, hmemt, hsc, htc, hempty]
    simp
  · intro hne
    have hall : ∀ x ∈ sc.filter (fun c => c ∉ tc), ∃ c, dictLookup x s.commits = some c := by
      intro x hx
      exact walkParents_mem s.commits _ ptrs sc hws x (List.mem_of_mem_filter hx)
    obtain ⟨mf, hmf, hmem⟩ := collectModified_ok s.commits (sc.filter (fun c => c ∉ tc)) [] hall
    have hok : createPrOp t ti d src tgt au s =
        .ok ("PR-" ++ Nat.repr (s.pr_counter + 1),
          { s with pr_counter := s.pr_counter + 1,
                   pull_requests := s.pull_requests ++
                     [{ id := "PR-" ++ Nat.repr (s.pr_counter + 1), title := ti,
                        description := d, author := au, created_at := t,
                        source_branch := src, target_branch := tgt,
                        commit_ids := sc.filter (fun c => c ∉ tc),
                        modified_files := mf, reviewers := [] }],
                   pr_map := dictInsert ("PR-" ++ Nat.repr (s.pr_counter + 1))
                     { id := "PR-" ++ Nat.repr (s.pr_counter + 1), title := ti,
                       description := d, author := au, created_at := t,
                       source_branch := src, target_branch := tgt,
                       commit_ids := sc.filter (fun c => c ∉ tc),
                       modified_files := mf, reviewers := [] } s.pr_map }) := by
      simp only [createPrOp, hmems, hmemt, hsc, htc, if_neg hne, hmf]
      simp
    refine ⟨_, _, hok, dictLookup_insert_self _ _ _, rfl, ?_⟩
    intro f
    rw [hmem f]
    simp

/-- Witness for `create_pr_unique_commits_spec`: two commits on `main`,
branch `feature` taken at the first; `main → main` has no unique commits
and fails, `main → feature` carries exactly the second commit. -/
theorem create_pr_unique_commits_spec_witness :
    createPrOp 2 "t" "d" "main" "main" "au"
      (execOps (fun x => x) initState
        [.add "a.txt" "1", .commit 0 "first" "e", .branch "feature",
         .add "a.txt" "2", .commit 1 "second" "e"]) =
      .error (.noChanges,
        execOps (fun x => x) initState
          [.add "a.txt" "1", .commit 0 "first" "e", .branch "feature",
           .add "a.txt" "2", .commit 1 "second" "e"]) ∧
    ∃ s' pr, createPrOp 2 "t" "d" "main" "feature" "au"
        (execOps (fun x => x) initState
          [.add "a.txt" "1", .commit 0 "first" "e", .branch "feature",
           .add "a.txt" "2", .commit 1 "second" "e"]) = .ok ("PR-1", s') ∧
      dictLookup "PR-1" s'.pr_map = some pr ∧
      pr.commit_ids = ["second1first0Noneea.txt1ea.txt2"] := by
  constructor
  · exact (create_pr_unique_commits_spec 2 "t" "d" "au"
      (execOps (fun x => x) initState
        [.add "a.txt" "1", .commit 0 "first" "e", .branch "feature",
         .add "a.txt" "2", .commit 1 "second" "e"]) "main" "main"
      ["second1first0Noneea.txt1ea.txt2", "first0Noneea.txt1"]
      ["second1first0Noneea.txt1ea.txt2", "first0Noneea.txt1"]
      (by decide) (by decide)).1 (by decide)
  · obtain ⟨s', pr, hok, hlook, hcm, _⟩ := (create_pr_unique_commits_spec 2 "t" "d" "au"
      (execOps (fun x => x) initState
        [.add "a.txt" "1", .commit 0 "first" "e", .branch "feature",
         .add "a.txt" "2", .commit 1 "second" "e"]) "main" "feature"
      ["second1first0Noneea.txt1ea.txt2", "first0Noneea.txt1"]
      ["first0Noneea.txt1"]
      (by decide) (by decide)).2 (by decide)
    refine ⟨s', pr, hok, hlook, ?_⟩
    rw [hcm]
    decide

/-! ## C7: PR ids are sequential and strictly increase, even across clears -/

theorem createPrOp_ok_spec (t : Nat) (ti d sb tb au : String) (s : RepoState)
    (pid : String) (s' : RepoState)
    (h : createPrOp t ti d sb tb au s = .ok (pid, s')) :
    pid = "PR-" ++ Nat.repr (s.pr_counter + 1) ∧
    ∃ pr : PullRequest, pr.id = pid ∧ pr.status = "open" ∧
      pr.closed_at = none ∧ pr.reviewers = [] ∧ pr.tags = [] ∧
      s' = { s with pr_counter := s.pr_counter + 1,
                    pull_requests := s.pull_requests ++ [pr],
                    pr_map := dictInsert pid pr s.pr_map } := by
  simp only [createPrOp] at h
  split at h
  · exact absurd h (by simp)
  · split at h
    · exact absurd h (by simp)
    · split at h
      · split at h
        · exact absurd h (by simp)
        · split at h
          · exact absurd h (by simp)
          · injection h with h
            have hpid : pid = "PR-" ++ Nat.repr (s.pr_counter + 1) :=
              (congrArg Prod.fst h).symm
            have hst := (congrArg Prod.snd h).symm
            subst hpid
            exact ⟨rfl, _, rfl, rfl, rfl, rfl, rfl, hst⟩
      · exact absurd h (by simp)

theorem prCounter_mono_step (hash : String → String) (s : RepoState) (op : Op) :
    s.pr_counter ≤ (execOp hash s op).pr_counter := by
  cases op with
  | add f c =>
    obtain ⟨wd, st, he⟩ := execOp_add_shape hash f c s
    rw [he]
  | commit t m a =>
    rcases execOp_commit_shape hash t m a s with he | ⟨cm, br, hd, he⟩ <;> rw [he]
  | branch n =>
    rcases execOp_branch_shape hash n s with he | ⟨br, he⟩ <;> rw [he]
  | checkout n =>
    rcases execOp_checkout_shape hash n s with he | ⟨ptr, wd, he⟩ <;> rw [he]
  | checkoutCommit i =>
    rcases execOp_checkoutCommit_shape hash i s with he | ⟨wd, he⟩ <;> rw [he]
  | createPR t ti d sb tb au =>
    rcases execOp_createPR_shape hash t ti d sb tb au s with he | ⟨pid, pr, he⟩ <;> rw [he]
    all_goals first
      | exact Nat.le_refl _
      | exact Nat.le_succ _
  | reviewPR p r =>
    obtain ⟨q, pm, he⟩ := execOp_prMut_shape hash s (.reviewPR p r) (Or.inl ⟨p, r, rfl⟩)
    rw [he]
  | approvePR t p =>
    obtain ⟨q, pm, he⟩ := execOp_prMut_shape hash s (.approvePR t p)
      (Or.inr (Or.inl ⟨t, p, rfl⟩))
    rw [he]
  | rejectPR t p =>
    obtain ⟨q, pm, he⟩ := execOp_prMut_shape hash s (.rejectPR t p)
      (Or.inr (Or.inr (Or.inl ⟨t, p, rfl⟩)))
    rw [he]
  | cancelPR t p =>
    obtain ⟨q, pm, he⟩ := execOp_prMut_shape hash s (.cancelPR t p)
      (Or.inr (Or.inr (Or.inr (Or.inl ⟨t, p, rfl⟩))))
    rw [he]
  | tagPR p tg =>
    obtain ⟨q, pm, he⟩ := execOp_prMut_shape hash s (.tagPR p tg)
      (Or.inr (Or.inr (Or.inr (Or.inr (Or.inl ⟨p, tg, rfl⟩)))))
    rw [he]
  | clearPRs =>
    obtain ⟨q, pm, he⟩ := execOp_prMut_shape hash s .clearPRs
      (Or.inr (Or.inr (Or.inr (Or.inr (Or.inr rfl)))))
    rw [he]

theorem prCounter_mono_execOps (hash : String → String) (ops : List Op) (s : RepoState) :
    s.pr_counter ≤ (execOps hash s ops).pr_counter := by
  induction ops generalizing s with
  | nil => exact Nat.le_refl _
  | cons op rest ih =>
    exact (prCounter_mono_step hash s op).trans (ih (execOp hash s op))

/-- **C7.** PR ids are issued sequentially as `PR-1`, `PR-2`, …: a
successful create returns id `PR-(counter+1)` and bumps the counter, the
counter never decreases under any operation (in particular
`clear_pull_requests` empties the queue and the id index but keeps the
counter), so a PR created after any further operation sequence —
clears included — carries a strictly greater number. -/
theorem pr_ids_monotonic_spec (hash : String → String) (s : RepoState) (ops : List Op)
    (t1 t2 : Nat) (ti1 d1 sb1 tb1 au1 ti2 d2 sb2 tb2 au2 : String)
    (pid1 pid2 : String) (s1 s2 : RepoState)
    (h1 : createPrOp t1 ti1 d1 sb1 tb1 au1 s = .ok (pid1, s1))
    (h2 : createPrOp t2 ti2 d2 sb2 tb2 au2 (execOps hash s1 ops) = .ok (pid2, s2)) :
    pid1 = "PR-" ++ Nat.repr (s.pr_counter + 1) ∧
    s1.pr_counter = s.pr_counter + 1 ∧
    pid2 = "PR-" ++ Nat.repr ((execOps hash s1 ops).pr_counter + 1) ∧
    s.pr_counter + 1 < (execOps hash s1 ops).pr_counter + 1 ∧
    (∀ st : RepoState, clearPrsOp st =
      { st with pull_requests := [], pr_map := [] }) := by
  obtain ⟨hpid1, pr1, _, _, _, _, _, hs1⟩ := createPrOp_ok_spec t1 ti1 d1 sb1 tb1 au1 s pid1 s1 h1
  obtain ⟨hpid2, pr2, _, _, _, _, _, hs2⟩ :=
    createPrOp_ok_spec t2 ti2 d2 sb2 tb2 au2 (execOps hash s1 ops) pid2 s2 h2
  have hc1 : s1.pr_counter = s.pr_counter + 1 := by rw [hs1]
  have hmono : s1.pr_counter ≤ (execOps hash s1 ops).pr_counter :=
    prCounter_mono_execOps hash ops s1
  refine ⟨hpid1, hc1, hpid2, ?_, fun st => rfl⟩
  calc s.pr_counter + 1 = s1.pr_counter := hc1.symm
    _ ≤ (execOps hash s1 ops).pr_counter := hmono
    _ < (execOps hash s1 ops).pr_counter + 1 := Nat.lt_succ_self _

/-- Witness for `pr_ids_monotonic_spec`: create `PR-1`, then two more
PRs, then `clear`; the next create still yields the strictly larger
`PR-4`. -/
theorem pr_ids_monotonic_spec_witness :
    createPrOp 2 "t1" "d" "main" "feature" "au"
      (execOps (fun x => x) initState
        [.add "a.txt" "1", .commit 0 "first" "e", .branch "feature",
         .add "a.txt" "2", .commit 1 "second" "e"]) =
      .ok ("PR-1",
        execOp (fun x => x)
          (execOps (fun x => x) initState
            [.add "a.txt" "1", .commit 0 "first" "e", .branch "feature",
             .add "a.txt" "2", .commit 1 "second" "e"])
          (.createPR 2 "t1" "d" "main" "feature" "au")) ∧
    createPrOp 5 "t4" "d" "main" "feature" "au"
      (execOps (fun x => x)
        (execOp (fun x => x)
          (execOps (fun x => x) initState
            [.add "a.txt" "1", .commit 0 "first" "e", .branch "feature",
             .add "a.txt" "2", .commit 1 "second" "e"])
          (.createPR 2 "t1" "d" "main" "feature" "au"))
        [.createPR 3 "t2" "d" "main" "feature" "au",
         .createPR 4 "t3" "d" "main" "feature" "au", .clearPRs]) =
      .ok ("PR-4",
        execOp (fun x => x)
          (execOps (fun x => x)
            (execOp (fun x => x)
              (execOps (fun x => x) initState
                [.add "a.txt" "1", .commit 0 "first" "e", .branch "feature",
                 .add "a.txt" "2", .commit 1 "second" "e"])
              (.createPR 2 "t1" "d" "main" "feature" "au"))
            [.createPR 3 "t2" "d" "main" "feature" "au",
             .createPR 4 "t3" "d" "main" "feature" "au", .clearPRs])
          (.createPR 5 "t4" "d" "main" "feature" "au")) ∧
    (execOps (fun x => x) initState
        [.add "a.txt" "1", .commit 0 "first" "e", .branch "feature",
         .add "a.txt" "2", .commit 1 "second" "e"]).pr_counter + 1 <
      (execOps (fun x => x)
        (execOp (fun x => x)
          (execOps (fun x => x) initState
            [.add "a.txt" "1", .commit 0 "first" "e", .branch "feature",
             .add "a.txt" "2", .commit 1 "second" "e"])
          (.createPR 2 "t1" "d" "main" "feature" "au"))
        [.createPR 3 "t2" "d" "main" "feature" "au",
         .createPR 4 "t3" "d" "main" "feature" "au", .clearPRs]).pr_counter + 1 := by
  have hok1 : createPrOp 2 "t1" "d" "main" "feature" "au"
      (execOps (fun x => x) initState
        [.add "a.txt" "1", .commit 0 "first" "e", .branch "feature",
         .add "a.txt" "2", .commit 1 "second" "e"]) =
      .ok ("PR-1",
        execOp (fun x => x)
          (execOps (fun x => x) initState
            [.add "a.txt" "1", .commit 0 "first" "e", .branch "feature",
             .add "a.txt" "2", .commit 1 "second" "e"])
          (.createPR 2 "t1" "d" "main" "feature" "au")) := rfl
  have hok2 : createPrOp 5 "t4" "d" "main" "feature" "au"
      (execOps (fun x => x)
        (execOp (fun x => x)
          (execOps (fun x => x) initState
            [.add "a.txt" "1", .commit 0 "first" "e", .branch "feature",
             .add "a.txt" "2", .commit 1 "second" "e"])
          (.createPR 2 "t1" "d" "main" "feature" "au"))
        [.createPR 3 "t2" "d" "main" "feature" "au",
         .createPR 4 "t3" "d" "main" "feature" "au", .clearPRs]) =
      .ok ("PR-4",
        execOp (fun x => x)
          (execOps (fun x => x)
            (execOp (fun x => x)
              (execOps (fun x => x) initState
                [.add "a.txt" "1", .commit 0 "first" "e", .branch "feature",
                 .add "a.txt" "2", .commit 1 "second" "e"])
              (.createPR 2 "t1" "d" "main" "feature" "au"))
            [.createPR 3 "t2" "d" "main" "feature" "au",
             .createPR 4 "t3" "d" "main" "feature" "au", .clearPRs])
          (.createPR 5 "t4" "d" "main" "feature" "au")) := rfl
  have h := pr_ids_monotonic_spec (fun x => x)
    (execOps (fun x => x) initState
      [.add "a.txt" "1", .commit 0 "first" "e", .branch "feature",
       .add "a.txt" "2", .commit 1 "second" "e"])
    [.createPR 3 "t2" "d" "main" "feature" "au",
     .createPR 4 "t3" "d" "main" "feature" "au", .clearPRs]
    2 5 "t1" "d" "main" "feature" "au" "t4" "d" "main" "feature" "au"
    "PR-1" "PR-4" _ _ hok1 hok2
  exact ⟨hok1, hok2, h.2.2.2.1⟩

/-! ## Injectivity of `Nat.repr`, hence freshness of generated PR ids -/

theorem toDigitsCore_eq_tdigits :
    ∀ (fuel n : Nat) (ds : List Char), n < fuel →
      Nat.toDigitsCore 10 fuel n ds = tdigits n ++ ds := by
  intro fuel
  induction fuel with
  | zero => intro n ds h; exact absurd h (Nat.not_lt_zero n)
  | succ f ih =>
    intro n ds h
    by_cases h0 : n / 10 = 0
    · simp only [Nat.toDigitsCore, h0, if_pos]
      rw [tdigits]
      simp [h0]
    · have hpos : 0 < n := Nat.pos_of_ne_zero fun hn => h0 (by simp [hn])
      have hlt : n / 10 < f := by
        have h1 : n / 10 < n := Nat.div_lt_self hpos (by decide)
        omega
      simp only [Nat.toDigitsCore, h0, if_neg, ite_false]
      rw [ih (n / 10) _ hlt]
      conv_rhs => rw [tdigits]
      simp [h0]

theorem repr_eq_tdigits (n : Nat) : Nat.repr n = (tdigits n).asString := by
  unfold Nat.repr Nat.toDigits
  rw [toDigitsCore_eq_tdigits (n + 1) n [] (Nat.lt_succ_self n)]
  simp

theorem digitChar_inj_lt {a b : Nat} (ha : a < 10) (hb : b < 10)
    (h : Nat.digitChar a = Nat.digitChar b) : a = b := by
  have hfin : ∀ x y : Fin 10, Nat.digitChar x.val = Nat.digitChar y.val → x = y := by decide
  have := hfin ⟨a, ha⟩ ⟨b, hb⟩ h
  exact congrArg Fin.val this

theorem tdigits_ne_nil (n : Nat) : tdigits n ≠ [] := by
  rw [tdigits]
  split <;> simp

theorem tdigits_inj : ∀ n m : Nat, tdigits n = tdigits m → n = m := by
  intro n
  induction n using Nat.strong_induction_on with
  | _ n ih =>
    intro m h
    unfold tdigits at h
    by_cases hn : n / 10 = 0 <;> by_cases hm : m / 10 = 0
    · rw [dif_pos hn, dif_pos hm] at h
      injection h with h1
      have hmod : n % 10 = m % 10 :=
        digitChar_inj_lt (Nat.mod_lt n (by decide)) (Nat.mod_lt m (by decide)) h1
      omega
    · rw [dif_pos hn, dif_neg hm] at h
      have hlen := congrArg List.length h
      simp only [List.length_cons, List.length_nil, List.length_append] at hlen
      have hz : (tdigits (m / 10)).length = 0 := by omega
      exact absurd (List.length_eq_zero.mp hz) (tdigits_ne_nil (m / 10))
    · rw [dif_neg hn, dif_pos hm] at h
      have hlen := congrArg List.length h
      simp only [List.length_cons, List.length_nil, List.length_append] at hlen
      have hz : (tdigits (n / 10)).length = 0 := by omega
      exact absurd (List.length_eq_zero.mp hz) (tdigits_ne_nil (n / 10))
    · rw [dif_neg hn, dif_neg hm] at h
      have hlen0 := congrArg List.length h
      simp only [List.length_append, List.length_cons, List.length_nil] at hlen0
      have hlen : (tdigits (n / 10)).length = (tdigits (m / 10)).length := by omega
      obtain ⟨hpre, hsuf⟩ := List.append_inj h hlen
      injection hsuf with hdig
      have hmod : n % 10 = m % 10 :=
        digitChar_inj_lt (Nat.mod_lt n (by decide)) (Nat.mod_lt m (by decide)) hdig
      have hpos : 0 < n := Nat.pos_of_ne_zero fun hz => hn (by simp [hz])
      have hdiv : n / 10 = m / 10 :=
        ih (n / 10) (Nat.div_lt_self hpos (by decide)) (m / 10) hpre
      omega

theorem nat_repr_inj {n m : Nat} (h : Nat.repr n = Nat.repr m) : n = m := by
  rw [repr_eq_tdigits, repr_eq_tdigits] at h
  apply tdigits_inj
  have := congrArg String.data h
  simpa [List.asString] using this

theorem prId_string_inj {n m : Nat}
    (h : "PR-" ++ Nat.repr n = "PR-" ++ Nat.repr m) : n = m := by
  apply nat_repr_inj
  have hd := congrArg String.data h
  simp only [String.data_append] at hd
  exact String.ext (List.append_cancel_left hd)

/-! ## The pull-request engine invariant -/

theorem dictLookup_cons_ne {β : Type} {k0 k : String} (v : β) (t : List (String × β))
    (h : k0 ≠ k) : dictLookup k ((k0, v) :: t) = dictLookup k t := by
  simp [dictLookup, h]

theorem dictLookup_updateMap (p : String) (f : PullRequest → PullRequest)
    (l : List (String × PullRequest)) (k : String) :
    dictLookup k (l.map (fun kv => if kv.1 = p then (kv.1, f kv.2) else kv)) =
      if k = p then (dictLookup k l).map f else dictLookup k l := by
  induction l with
  | nil =>
    simp only [List.map_nil, dictLookup]
    split <;> rfl
  | cons kv t ih =>
    obtain ⟨k0, v0⟩ := kv
    simp only [List.map_cons]
    by_cases h0 : k0 = p
    · have hent : (if (k0, v0).1 = p then ((k0, v0).1, f (k0, v0).2) else (k0, v0)) =
          (k0, f v0) := by simp [h0]
      rw [hent]
      by_cases hk : k0 = k
      · subst hk
        rw [dictLookup_cons_self, if_pos h0, dictLookup_cons_self]
        rfl
      · rw [dictLookup_cons_ne (f v0) _ hk, ih, dictLookup_cons_ne v0 t hk]
    · have hent : (if (k0, v0).1 = p then ((k0, v0).1, f (k0, v0).2) else (k0, v0)) =
          (k0, v0) := by simp [h0]
      rw [hent]
      by_cases hk : k0 = k
      · subst hk
        rw [dictLookup_cons_self, if_neg h0, dictLookup_cons_self]
      · rw [dictLookup_cons_ne v0 _ hk, ih, dictLookup_cons_ne v0 t hk]

theorem dictKeys_updateMap (p : String) (f : PullRequest → PullRequest)
    (l : List (String × PullRequest)) :
    dictKeys (l.map (fun kv => if kv.1 = p then (kv.1, f kv.2) else kv)) = dictKeys l := by
  induction l with
  | nil => rfl
  | cons kv t ih =>
    obtain ⟨k0, v0⟩ := kv
    simp only [dictKeys, List.map_cons] at ih ⊢
    congr 1
    all_goals try exact ih
    all_goals split <;> rfl

theorem dictLookup_of_mem_nodup {β : Type} {k : String} {v : β} {l : List (String × β)}
    (hnd : (dictKeys l).Nodup) (hm : (k, v) ∈ l) : dictLookup k l = some v := by
  induction l with
  | nil => simp at hm
  | cons kv t ih =>
    obtain ⟨k0, v0⟩ := kv
    have hnd' : (k0 :: dictKeys t).Nodup := hnd
    rcases List.mem_cons.mp hm with heq | hmt
    · injection heq with h1 h2
      subst h1; subst h2
      simp [dictLookup]
    · have hkt : k ∈ dictKeys t := by
        simp only [dictKeys, List.mem_map]
        exact ⟨(k, v), hmt, rfl⟩
      have hne : k0 ≠ k := fun he => (List.nodup_cons.mp hnd').1 (he ▸ hkt)
      simp only [dictLookup, if_neg hne]
      exact ih (List.nodup_cons.mp hnd').2 hmt

theorem listMapId {α : Type} (f : α → α) :
    ∀ l : List α, (∀ a ∈ l, f a = a) → l.map f = l := by
  intro l
  induction l with
  | nil => intro _; rfl
  | cons a t ih =>
    intro h
    simp only [List.map_cons, h a (by simp), ih (fun x hx => h x (by simp [hx]))]

theorem prInv_init : PrInv initState := by
  refine ⟨?_, ?_, ?_, List.nodup_nil⟩
  · intro k pr hk
    exact absurd hk (by simp [initState, dictLookup])
  · intro k pr hk
    exact absurd hk (by simp [initState, dictLookup])
  · intro pr hpr
    exact absurd hpr (List.not_mem_nil pr)

theorem prInv_updatePr (p : String) (f : PullRequest → PullRequest) (s : RepoState)
    (hid : ∀ pr, (f pr).id = pr.id) (h : PrInv s) : PrInv (updatePr p f s) := by
  constructor
  · intro k pr hk
    simp only [updatePr] at hk
    rw [dictLookup_updateMap] at hk
    by_cases hkp : k = p
    · rw [if_pos hkp] at hk
      rcases hl : dictLookup k s.pr_map with _ | v
      · rw [hl] at hk; simp at hk
      · rw [hl] at hk
        exact h.ids k v hl
    · rw [if_neg hkp] at hk
      exact h.ids k pr hk
  · intro k pr hk
    simp only [updatePr] at hk
    rw [dictLookup_updateMap] at hk
    by_cases hkp : k = p
    · rw [if_pos hkp] at hk
      rcases hl : dictLookup k s.pr_map with _ | v
      · rw [hl] at hk; simp at hk
      · rw [hl] at hk
        simp at hk
        subst hk
        rw [hid v]
        exact h.idEq k v hl
    · rw [if_neg hkp] at hk
      exact h.idEq k pr hk
  · intro q' hq'
    simp only [updatePr, List.mem_map] at hq'
    obtain ⟨q, hq, rfl⟩ := hq'
    simp only [updatePr]
    rw [dictLookup_updateMap]
    by_cases hqp : q.id = p
    · rw [if_pos hqp]
      have hfid : (f q).id = p := by rw [hid q]; exact hqp
      rw [if_pos hfid, hid q, h.queueMap q hq]
      rfl
    · rw [if_neg hqp, if_neg hqp]
      exact h.queueMap q hq
  · simp only [updatePr]
    rw [dictKeys_updateMap]
    exact h.keysNodup

theorem prId_fresh {s : RepoState} (h : PrInv s) :
    ("PR-" ++ Nat.repr (s.pr_counter + 1)) ∉ dictKeys s.pr_map := by
  intro hmem
  obtain ⟨v, hv⟩ := lookup_isSome_of_mem_dictKeys hmem
  obtain ⟨n, h1, h2, heq⟩ := h.ids _ v hv
  have := prId_string_inj heq
  omega

theorem prInv_createOk {s : RepoState} {t : Nat} {ti d sb tb au pid : String}
    {s' : RepoState} (h : PrInv s)
    (hok : createPrOp t ti d sb tb au s = .ok (pid, s')) : PrInv s' := by
  obtain ⟨hpid, pr, hprid, hprst, _, _, _, hs'⟩ :=
    createPrOp_ok_spec t ti d sb tb au s pid s' hok
  subst hpid
  have hfresh := prId_fresh h
  subst hs'
  constructor
  · intro k v hk
    simp only at hk
    rw [dictLookup_insert] at hk
    show ∃ n, 1 ≤ n ∧ n ≤ s.pr_counter + 1 ∧ k = "PR-" ++ Nat.repr n
    by_cases hkp : "PR-" ++ Nat.repr (s.pr_counter + 1) = k
    · exact ⟨s.pr_counter + 1, by omega, Nat.le_refl _, hkp.symm⟩
    · rw [if_neg hkp] at hk
      obtain ⟨n, h1, h2, h3⟩ := h.ids k v hk
      exact ⟨n, h1, by omega, h3⟩
  · intro k v hk
    simp only at hk
    rw [dictLookup_insert] at hk
    by_cases hkp : "PR-" ++ Nat.repr (s.pr_counter + 1) = k
    · rw [if_pos hkp] at hk
      injection hk with hk
      subst hk
      rw [hprid]
      exact hkp
    · rw [if_neg hkp] at hk
      exact h.idEq k v hk
  · intro q hq
    simp only at hq ⊢
    rcases List.mem_append.mp hq with hq | hq
    · have hold := h.queueMap q hq
      have hne : "PR-" ++ Nat.repr (s.pr_counter + 1) ≠ q.id := by
        intro he
        exact hfresh (he ▸ mem_dictKeys_of_lookup hold)
      rw [dictLookup_insert, if_neg hne]
      exact hold
    · have hq' : q = pr := by simpa using hq
      subst hq'
      rw [hprid]
      exact dictLookup_insert_self _ _ _
  · simp only
    rw [dictKeys_insert, if_neg hfresh]
    have : ("PR-" ++ Nat.repr (s.pr_counter + 1)) ∉ dictKeys s.pr_map := hfresh
    simp [List.nodup_append, h.keysNodup, this]

theorem prInv_step (hash : String → String) (s : RepoState) (op : Op)
    (h : PrInv s) : PrInv (execOp hash s op) := by
  cases op with
  | add f c =>
    obtain ⟨wd, st, he⟩ := execOp_add_shape hash f c s
    rw [he]
    exact ⟨h.ids, h.idEq, h.queueMap, h.keysNodup⟩
  | commit t m a =>
    rcases execOp_commit_shape hash t m a s with he | ⟨cm, br, hd, he⟩ <;> rw [he]
    · exact h
    · exact ⟨h.ids, h.idEq, h.queueMap, h.keysNodup⟩
  | branch n =>
    rcases execOp_branch_shape hash n s with he | ⟨br, he⟩ <;> rw [he]
    · exact h
    · exact ⟨h.ids, h.idEq, h.queueMap, h.keysNodup⟩
  | checkout n =>
    rcases execOp_checkout_shape hash n s with he | ⟨ptr, wd, he⟩ <;> rw [he]
    · exact h
    · exact ⟨h.ids, h.idEq, h.queueMap, h.keysNodup⟩
  | checkoutCommit i =>
    rcases execOp_checkoutCommit_shape hash i s with he | ⟨wd, he⟩ <;> rw [he]
    · exact h
    · exact ⟨h.ids, h.idEq, h.queueMap, h.keysNodup⟩
  | createPR t ti d sb tb au =>
    rcases createPrOp_shape t ti d sb tb au s with ⟨e, he⟩ | ⟨pid, pr, he⟩
    · have h2 : execOp hash s (.createPR t ti d sb tb au) = s := by
        simp [execOp, he]
      rw [h2]; exact h
    · have h2 : execOp hash s (.createPR t ti d sb tb au) =
          { s with pr_counter := s.pr_counter + 1,
                   pull_requests := s.pull_requests ++ [pr],
                   pr_map := dictInsert pid pr s.pr_map } := by
        simp [execOp, he]
      rw [h2]
      exact prInv_createOk h he
  | reviewPR p r =>
    rcases hl : dictLookup p s.pr_map with _ | pr
    · have he : execOp hash s (.reviewPR p r) = s := by
        simp [execOp, reviewPrOp, hl]
      rw [he]; exact h
    · by_cases hst : pr.status ≠ "open"
      · have he : execOp hash s (.reviewPR p r) = s := by
          simp [execOp, reviewPrOp, hl, hst]
        rw [he]; exact h
      · have he : execOp hash s (.reviewPR p r) =
            updatePr p (fun q => { q with reviewers := setInsert r q.reviewers }) s := by
          simp [execOp, reviewPrOp, hl, hst]
        rw [he]
        exact prInv_updatePr p _ s (fun q => rfl) h
  | approvePR t p =>
    rcases hl : dictLookup p s.pr_map with _ | pr
    · have he : execOp hash s (.approvePR t p) = s := by
        simp [execOp, approvePrOp, hl]
      rw [he]; exact h
    · by_cases hst : pr.status ≠ "open"
      · have he : execOp hash s (.approvePR t p) = s := by
          simp [execOp, approvePrOp, hl, hst]
        rw [he]; exact h
      · have he : execOp hash s (.approvePR t p) =
            updatePr p (fun q => { q with status := "approved", closed_at := some t }) s := by
          simp [execOp, approvePrOp, hl, hst]
        rw [he]
        exact prInv_updatePr p _ s (fun q => rfl) h
  | rejectPR t p =>
    rcases hl : dictLookup p s.pr_map with _ | pr
    · have he : execOp hash s (.rejectPR t p) = s := by
        simp [execOp, rejectPrOp, hl]
      rw [he]; exact h
    · by_cases hst : pr.status ≠ "open"
      · have he : execOp hash s (.rejectPR t p) = s := by
          simp [execOp, rejectPrOp, hl, hst]
        rw [he]; exact h
      · have he : execOp hash s (.rejectPR t p) =
            updatePr p (fun q => { q with status := "rejected", closed_at := some t }) s := by
          simp [execOp, rejectPrOp, hl, hst]
        rw [he]
        exact prInv_updatePr p _ s (fun q => rfl) h
  | cancelPR t p =>
    rcases hl : dictLookup p s.pr_map with _ | pr
    · have he : execOp hash s (.cancelPR t p) = s := by
        simp [execOp, cancelPrOp, hl]
      rw [he]; exact h
    · by_cases hst : pr.status ≠ "open"
      · have he : execOp hash s (.cancelPR t p) = s := by
          simp [execOp, cancelPrOp, hl, hst]
        rw [he]; exact h
      · have he : execOp hash s (.cancelPR t p) =
            updatePr p (fun q => { q with status := "cancelled", closed_at := some t }) s := by
          simp [execOp, cancelPrOp, hl, hst]
        rw [he]
        exact prInv_updatePr p _ s (fun q => rfl) h
  | tagPR p tg =>
    rcases hl : dictLookup p s.pr_map with _ | pr
    · have he : execOp hash s (.tagPR p tg) = s := by
        simp [execOp, tagPrOp, hl]
      rw [he]; exact h
    · have he : execOp hash s (.tagPR p tg) =
          updatePr p (fun q => { q with tags := setInsert tg q.tags }) s := by
        simp [execOp, tagPrOp, hl]
      rw [he]
      exact prInv_updatePr p _ s (fun q => rfl) h
  | clearPRs =>
    have he : execOp hash s .clearPRs = { s with pull_requests := [], pr_map := [] } := by
      simp [execOp, clearPrsOp]
    rw [he]
    refine ⟨?_, ?_, ?_, List.nodup_nil⟩
    · intro k pr hk
      exact absurd hk (by simp [dictLookup])
    · intro k pr hk
      exact absurd hk (by simp [dictLookup])
    · intro pr hpr
      exact absurd hpr (List.not_mem_nil pr)

theorem prInv_reachable (hash : String → String) (s : RepoState)
    (h : Reachable hash s) : PrInv s := by
  obtain ⟨ops, rfl⟩ := h
  suffices hgen : ∀ s₀, PrInv s₀ → PrInv (execOps hash s₀ ops) from hgen initState prInv_init
  induction ops with
  | nil => exact fun s₀ h₀ => h₀
  | cons op rest ih => exact fun s₀ h₀ => ih _ (prInv_step hash s₀ op h₀)

/-! ## C5: PR status transitions are one-shot; tags work in any status -/

/-- **C5.** In every reachable state, a PR whose status has left `open`
rejects `review`, `approve`, `reject` and `cancel` with the
`InvalidStateError` kind, and no operation whatsoever ever changes its
status or reviewer set again; `approve`/`reject`/`cancel` on an open PR
set the corresponding terminal status and record the closing timestamp;
`tag` succeeds in every status, only adds to the tag set, and a
duplicate tag is a complete no-op. -/
theorem pr_terminal_states_spec (hash : String → String) (s : RepoState)
    (hr : Reachable hash s) (prId : String) (pr : PullRequest)
    (hlook : dictLookup prId s.pr_map = some pr) :
    (pr.status ≠ "open" →
      (∀ rev, reviewPrOp prId rev s = .error (.invalidState prId, s)) ∧
      (∀ t, approvePrOp t prId s = .error (.invalidState prId, s)) ∧
      (∀ t, rejectPrOp t prId s = .error (.invalidState prId, s)) ∧
      (∀ t, cancelPrOp t prId s = .error (.invalidState prId, s))) ∧
    (pr.status = "open" →
      (∀ t, ∃ s', approvePrOp t prId s = .ok s' ∧
        dictLookup prId s'.pr_map =
          some { pr with status := "approved", closed_at := some t }) ∧
      (∀ t, ∃ s', rejectPrOp t prId s = .ok s' ∧
        dictLookup prId s'.pr_map =
          some { pr with status := "rejected", closed_at := some t }) ∧
      (∀ t, ∃ s', cancelPrOp t prId s = .ok s' ∧
        dictLookup prId s'.pr_map =
          some { pr with status := "cancelled", closed_at := some t })) ∧
    (∀ tg, ∃ s', tagPrOp prId tg s = .ok s' ∧
      dictLookup prId s'.pr_map = some { pr with tags := setInsert tg pr.tags } ∧
      (tg ∈ pr.tags → s' = s)) ∧
    (pr.status ≠ "open" →
      ∀ op pr', dictLookup prId (execOp hash s op).pr_map = some pr' →
        pr'.status = pr.status ∧ pr'.reviewers = pr.reviewers) := by
  have hinv := prInv_reachable hash s hr
  refine ⟨?_, ?_, ?_, ?_⟩
  · intro hst
    refine ⟨?_, ?_, ?_, ?_⟩
    · intro rev; simp [reviewPrOp, hlook, hst]
    · intro t; simp [approvePrOp, hlook, hst]
    · intro t; simp [rejectPrOp, hlook, hst]
    · intro t; simp [cancelPrOp, hlook, hst]
  · intro hst
    have hst' : ¬ pr.status ≠ "open" := by simp [hst]
    refine ⟨?_, ?_, ?_⟩
    · intro t
      refine ⟨updatePr prId
          (fun q => { q with status := "approved", closed_at := some t }) s, ?_, ?_⟩
      · simp [approvePrOp, hlook, hst']
      · simp only [updatePr]
        rw [dictLookup_updateMap prId
          (fun q => { q with status := "approved", closed_at := some t }) s.pr_map prId,
          if_pos rfl, hlook]
        rfl
    · intro t
      refine ⟨updatePr prId
          (fun q => { q with status := "rejected", closed_at := some t }) s, ?_, ?_⟩
      · simp [rejectPrOp, hlook, hst']
      · simp only [updatePr]
        rw [dictLookup_updateMap prId
          (fun q => { q with status := "rejected", closed_at := some t }) s.pr_map prId,
          if_pos rfl, hlook]
        rfl
    · intro t
      refine ⟨updatePr prId
          (fun q => { q with status := "cancelled", closed_at := some t }) s, ?_, ?_⟩
      · simp [cancelPrOp, hlook, hst']
      · simp only [updatePr]
        rw [dictLookup_updateMap prId
          (fun q => { q with status := "cancelled", closed_at := some t }) s.pr_map prId,
          if_pos rfl, hlook]
        rfl
  · intro tg
    refine ⟨updatePr prId (fun q => { q with tags := setInsert tg q.tags }) s, ?_, ?_, ?_⟩
    · simp [tagPrOp, hlook]
    · simp only [updatePr]
      rw [dictLookup_updateMap prId
        (fun q => { q with tags := setInsert tg q.tags }) s.pr_map prId,
        if_pos rfl, hlook]
      rfl
    · intro hdup
      have hfix : (fun q : PullRequest => { q with tags := setInsert tg q.tags }) pr = pr := by
        simp [setInsert_of_mem hdup]
      have hmap : s.pr_map.map (fun kv =>
          if kv.1 = prId then (kv.1, { kv.2 with tags := setInsert tg kv.2.tags }) else kv) =
          s.pr_map := by
        apply listMapId
        intro kv hkv
        by_cases hk : kv.1 = prId
        · obtain ⟨k0, v0⟩ := kv
          simp only at hk
          subst hk
          have := dictLookup_of_mem_nodup hinv.keysNodup hkv
          rw [hlook] at this
          injection this with this
          subst this
          simp only [if_pos rfl]
          simp [setInsert_of_mem hdup]
        · simp [hk]
      have hqueue : s.pull_requests.map (fun q =>
          if q.id = prId then { q with tags := setInsert tg q.tags } else q) =
          s.pull_requests := by
        apply listMapId
        intro q hq
        by_cases hqid : q.id = prId
        · have hlk := hinv.queueMap q hq
          rw [hqid, hlook] at hlk
          injection hlk with hlk
          subst hlk
          simp only [if_pos hqid]
          simp [setInsert_of_mem hdup]
        · simp [hqid]
      show updatePr prId _ s = s
      unfold updatePr
      rw [hmap, hqueue]
  · intro hst op pr' hcond
    have hkeep : (execOp hash s op).pr_map = s.pr_map →
        pr'.status = pr.status ∧ pr'.reviewers = pr.reviewers := by
      intro hmap
      rw [hmap, hlook] at hcond
      injection hcond with hcond
      subst hcond
      exact ⟨rfl, rfl⟩
    cases op with
    | add f c =>
      obtain ⟨wd, st, he⟩ := execOp_add_shape hash f c s
      exact hkeep (by rw [he])
    | commit t m a =>
      rcases execOp_commit_shape hash t m a s with he | ⟨cm, br, hd, he⟩ <;>
        exact hkeep (by rw [he])
    | branch n =>
      rcases execOp_branch_shape hash n s with he | ⟨br, he⟩ <;> exact hkeep (by rw [he])
    | checkout n =>
      rcases execOp_checkout_shape hash n s with he | ⟨ptr, wd, he⟩ <;>
        exact hkeep (by rw [he])
    | checkoutCommit i =>
      rcases execOp_checkoutCommit_shape hash i s with he | ⟨wd, he⟩ <;>
        exact hkeep (by rw [he])
    | createPR t ti d sb tb au =>
      rcases createPrOp_shape t ti d sb tb au s with ⟨e, he⟩ | ⟨pid, prn, he⟩
      · exact hkeep (by simp [execOp, he])
      · obtain ⟨hpid, prx, _, _, _, _, _, hs'⟩ :=
          createPrOp_ok_spec t ti d sb tb au s pid _ he
        have h2 : execOp hash s (.createPR t ti d sb tb au) =
            { s with pr_counter := s.pr_counter + 1,
                     pull_requests := s.pull_requests ++ [prn],
                     pr_map := dictInsert pid prn s.pr_map } := by
          simp [execOp, he]
        rw [h2] at hcond
        have hne : pid ≠ prId := by
          intro hcontra
          apply prId_fresh hinv
          rw [← hpid, hcontra]
          exact mem_dictKeys_of_lookup hlook
        simp only at hcond
        rw [dictLookup_insert_ne _ _ hne, hlook] at hcond
        injection hcond with hcond
        subst hcond
        exact ⟨rfl, rfl⟩
    | reviewPR p r =>
      rcases hl : dictLookup p s.pr_map with _ | q
      · exact hkeep (by simp [execOp, reviewPrOp, hl])
      · by_cases hqs : q.status ≠ "open"
        · exact hkeep (by simp [execOp, reviewPrOp, hl, hqs])
        · have hpne : p ≠ prId := by
            intro hcontra
            rw [hcontra, hlook] at hl
            injection hl with hl
            rw [hl] at hst
            exact hqs hst
          have he : execOp hash s (.reviewPR p r) =
              updatePr p (fun q => { q with reviewers := setInsert r q.reviewers }) s := by
            simp [execOp, reviewPrOp, hl, hqs]
          rw [he] at hcond
          simp only [updatePr] at hcond
          rw [dictLookup_updateMap p
            (fun q => { q with reviewers := setInsert r q.reviewers }) s.pr_map prId,
            if_neg (Ne.symm hpne), hlook] at hcond
          injection hcond with hcond
          subst hcond
          exact ⟨rfl, rfl⟩
    | approvePR t p =>
      rcases hl : dictLookup p s.pr_map with _ | q
      · exact hkeep (by simp [execOp, approvePrOp, hl])
      · by_cases hqs : q.status ≠ "open"
        · exact hkeep (by simp [execOp, approvePrOp, hl, hqs])
        · have hpne : p ≠ prId := by
            intro hcontra
            rw [hcontra, hlook] at hl
            injection hl with hl
            rw [hl] at hst
            exact hqs hst
          have he : execOp hash s (.approvePR t p) =
              updatePr p (fun q => { q with status := "approved", closed_at := some t }) s := by
            simp [execOp, approvePrOp, hl, hqs]
          rw [he] at hcond
          simp only [updatePr] at hcond
          rw [dictLookup_updateMap p
            (fun q => { q with status := "approved", closed_at := some t }) s.pr_map prId,
            if_neg (Ne.symm hpne), hlook] at hcond
          injection hcond with hcond
          subst hcond
          exact ⟨rfl, rfl⟩
    | rejectPR t p =>
      rcases hl : dictLookup p s.pr_map with _ | q
      · exact hkeep (by simp [execOp, rejectPrOp, hl])
      · by_cases hqs : q.status ≠ "open"
        · exact hkeep (by simp [execOp, rejectPrOp, hl, hqs])
        · have hpne : p ≠ prId := by
            intro hcontra
            rw [hcontra, hlook] at hl
            injection hl with hl
            rw [hl] at hst
            exact hqs hst
          have he : execOp hash s (.rejectPR t p) =
              updatePr p (fun q => { q with status := "rejected", closed_at := some t }) s := by
            simp [execOp, rejectPrOp, hl, hqs]
          rw [he] at hcond
          simp only [updatePr] at hcond
          rw [dictLookup_updateMap p
            (fun q => { q with status := "rejected", closed_at := some t }) s.pr_map prId,
            if_neg (Ne.symm hpne), hlook] at hcond
          injection hcond with hcond
          subst hcond
          exact ⟨rfl, rfl⟩
    | cancelPR t p =>
      rcases hl : dictLookup p s.pr_map with _ | q
      · exact hkeep (by simp [execOp, cancelPrOp, hl])
      · by_cases hqs : q.status ≠ "open"
        · exact hkeep (by simp [execOp, cancelPrOp, hl, hqs])
        · have hpne : p ≠ prId := by
            intro hcontra
            rw [hcontra, hlook] at hl
            injection hl with hl
            rw [hl] at hst
            exact hqs hst
          have he : execOp hash s (.cancelPR t p) =
              updatePr p (fun q => { q with status := "cancelled", closed_at := some t }) s := by
            simp [execOp, cancelPrOp, hl, hqs]
          rw [he] at hcond
          simp only [updatePr] at hcond
          rw [dictLookup_updateMap p
            (fun q => { q with status := "cancelled", closed_at := some t }) s.pr_map prId,
            if_neg (Ne.symm hpne), hlook] at hcond
          injection hcond with hcond
          subst hcond
          exact ⟨rfl, rfl⟩
    | tagPR p tg =>
      rcases hl : dictLookup p s.pr_map with _ | q
      · exact hkeep (by simp [execOp, tagPrOp, hl])
      · have he : execOp hash s (.tagPR p tg) =
            updatePr p (fun q => { q with tags := setInsert tg q.tags }) s := by
          simp [execOp, tagPrOp, hl]
        rw [he] at hcond
        simp only [updatePr] at hcond
        rw [dictLookup_updateMap p
          (fun q => { q with tags := setInsert tg q.tags }) s.pr_map prId] at hcond
        by_cases hpe : prId = p
        · rw [if_pos hpe, hlook] at hcond
          injection hcond with hcond
          subst hcond
          exact ⟨rfl, rfl⟩
        · rw [if_neg hpe, hlook] at hcond
          injection hcond with hcond
          subst hcond
          exact ⟨rfl, rfl⟩
    | clearPRs =>
      have he : execOp hash s .clearPRs = { s with pull_requests := [], pr_map := [] } := by
        simp [execOp, clearPrsOp]
      rw [he] at hcond
      exact absurd hcond (by simp [dictLookup])

/-- Witness for `pr_terminal_states_spec`: `PR-1` is approved, after
which `review` and a second `approve` fail with the invalid-state error
while `tag` still succeeds. -/
theorem pr_terminal_states_spec_witness :
    ∃ pr : PullRequest,
      dictLookup "PR-1" (execOps (fun x => x) initState
        [.add "a.txt" "1", .commit 0 "first" "e", .branch "feature",
         .add "a.txt" "2", .commit 1 "second" "e",
         .createPR 2 "t" "d" "main" "feature" "au", .approvePR 3 "PR-1"]).pr_map = some pr ∧
      pr.status = "approved" ∧
      reviewPrOp "PR-1" "alice" (execOps (fun x => x) initState
        [.add "a.txt" "1", .commit 0 "first" "e", .branch "feature",
         .add "a.txt" "2", .commit 1 "second" "e",
         .createPR 2 "t" "d" "main" "feature" "au", .approvePR 3 "PR-1"]) =
        .error (.invalidState "PR-1", execOps (fun x => x) initState
          [.add "a.txt" "1", .commit 0 "first" "e", .branch "feature",
           .add "a.txt" "2", .commit 1 "second" "e",
           .createPR 2 "t" "d" "main" "feature" "au", .approvePR 3 "PR-1"]) ∧
      approvePrOp 4 "PR-1" (execOps (fun x => x) initState
        [.add "a.txt" "1", .commit 0 "first" "e", .branch "feature",
         .add "a.txt" "2", .commit 1 "second" "e",
         .createPR 2 "t" "d" "main" "feature" "au", .approvePR 3 "PR-1"]) =
        .error (.invalidState "PR-1", execOps (fun x => x) initState
          [.add "a.txt" "1", .commit 0 "first" "e", .branch "feature",
           .add "a.txt" "2", .commit 1 "second" "e",
           .createPR 2 "t" "d" "main" "feature" "au", .approvePR 3 "PR-1"]) ∧
      ∃ s', tagPrOp "PR-1" "urgent" (execOps (fun x => x) initState
        [.add "a.txt" "1", .commit 0 "first" "e", .branch "feature",
         .add "a.txt" "2", .commit 1 "second" "e",
         .createPR 2 "t" "d" "main" "feature" "au", .approvePR 3 "PR-1"]) = .ok s' ∧
        dictLookup "PR-1" s'.pr_map =
          some { pr with tags := setInsert "urgent" pr.tags } := by
  have h := pr_terminal_states_spec (fun x => x)
    (execOps (fun x => x) initState
      [.add "a.txt" "1", .commit 0 "first" "e", .branch "feature",
       .add "a.txt" "2", .commit 1 "second" "e",
       .createPR 2 "t" "d" "main" "feature" "au", .approvePR 3 "PR-1"])
    ⟨[.add "a.txt" "1", .commit 0 "first" "e", .branch "feature",
      .add "a.txt" "2", .commit 1 "second" "e",
      .createPR 2 "t" "d" "main" "feature" "au", .approvePR 3 "PR-1"], rfl⟩
    "PR-1" _ rfl
  obtain ⟨s', htag, hlk, _⟩ := h.2.2.1 "urgent"
  exact ⟨_, rfl, rfl, (h.1 (by decide)).1 "alice", (h.1 (by decide)).2.1 4,
    s', htag, hlk⟩

/-! ## C9: parent walks terminate, visit each lineage commit once -/

theorem dictLookup_get_nodup {commits : List (String × Commit)}
    (hnd : (dictKeys commits).Nodup) (i : Nat) (hi : i < commits.length) :
    dictLookup (commits.get ⟨i, hi⟩).1 commits = some (commits.get ⟨i, hi⟩).2 := by
  have hm : ((commits.get ⟨i, hi⟩).1, (commits.get ⟨i, hi⟩).2) ∈ commits := by
    have hmem := List.get_mem commits i hi
    simpa using hmem
  exact dictLookup_of_mem_nodup hnd hm

theorem key_get_ne {commits : List (String × Commit)}
    (hnd : (dictKeys commits).Nodup) {i j : Nat} (hi : i < commits.length)
    (hj : j < commits.length) (hne : i ≠ j) :
    (commits.get ⟨i, hi⟩).1 ≠ (commits.get ⟨j, hj⟩).1 := by
  intro he
  have hleni : i < (dictKeys commits).length := by simpa [dictKeys]
  have hlenj : j < (dictKeys commits).length := by simpa [dictKeys]
  have hkeys : (dictKeys commits).get ⟨i, hleni⟩ = (dictKeys commits).get ⟨j, hlenj⟩ := by
    simpa [dictKeys, List.get_map] using he
  have hfin : (⟨i, hleni⟩ : Fin (dictKeys commits).length) = ⟨j, hlenj⟩ :=
    (List.Nodup.get_inj_iff hnd).mp hkeys
  exact hne (congrArg Fin.val hfin)

theorem mem_dictKeys_iff_get {commits : List (String × Commit)} {k : String} :
    k ∈ dictKeys commits ↔
      ∃ (i : Nat) (hi : i < commits.length), (commits.get ⟨i, hi⟩).1 = k := by
  simp only [dictKeys, List.mem_map]
  constructor
  · rintro ⟨a, ha, rfl⟩
    obtain ⟨⟨i, hi⟩, rfl⟩ := List.mem_iff_get.mp ha
    exact ⟨i, hi, rfl⟩
  · rintro ⟨i, hi, rfl⟩
    exact ⟨commits.get ⟨i, hi⟩, List.get_mem _ _ _, rfl⟩

theorem mem_take_keys {commits : List (String × Commit)} {i : Nat} {p : String}
    (h : p ∈ dictKeys (commits.take i)) :
    ∃ (j : Nat) (hj : j < commits.length), j < i ∧ (commits.get ⟨j, hj⟩).1 = p := by
  obtain ⟨j, hj, hp⟩ := mem_dictKeys_iff_get.mp h
  have hjlen : j < commits.length ∧ j < i := by
    have := hj
    rw [List.length_take] at this
    omega
  refine ⟨j, hjlen.1, hjlen.2, ?_⟩
  rw [← hp]
  congr 1
  exact List.get_take commits hjlen.1 hjlen.2

theorem walk_from_index (commits : List (String × Commit)) (wf : GraphWf commits) :
    ∀ (i : Nat), ∀ (hi : i < commits.length) (fuel : Nat), i < fuel →
      ∃ l, walkParents commits fuel (some (commits.get ⟨i, hi⟩).1) = some l ∧
        l.Nodup ∧
        (∀ x ∈ l, ∃ (j : Nat) (hj : j < commits.length),
          j ≤ i ∧ x = (commits.get ⟨j, hj⟩).1) ∧
        (∀ x, x ∈ l ↔
          Relation.ReflTransGen (ParentRel commits) (commits.get ⟨i, hi⟩).1 x) := by
  intro i
  induction i using Nat.strong_induction_on with
  | _ i ih =>
    intro hi fuel hfuel
    obtain ⟨f, rfl⟩ : ∃ f, fuel = f + 1 := ⟨fuel - 1, by omega⟩
    have hlk := dictLookup_get_nodup wf.nodup i hi
    rcases hpar : (commits.get ⟨i, hi⟩).2.parent_id with _ | p
    · refine ⟨[(commits.get ⟨i, hi⟩).1], ?_, by simp, ?_, ?_⟩
      · simp only [walkParents, hlk, hpar]
        rfl
      · intro x hx
        simp only [List.mem_singleton] at hx
        exact ⟨i, hi, Nat.le_refl i, hx⟩
      · intro x
        simp only [List.mem_singleton]
        constructor
        · rintro rfl
          exact Relation.ReflTransGen.refl
        · intro hr
          rcases Relation.ReflTransGen.cases_head hr with rfl | ⟨y, hstep, _⟩
          · rfl
          · obtain ⟨c, hc, hcp⟩ := hstep
            rw [hlk] at hc
            injection hc with hc
            subst hc
            rw [hpar] at hcp
            exact absurd hcp (by simp)
    · have hpmem := wf.parents i hi p hpar
      obtain ⟨j, hjl, hji, hjp⟩ := mem_take_keys hpmem
      have hjf : j < f := by omega
      obtain ⟨l', hw', hnd', hidx', hmem'⟩ := ih j hji hjl f hjf
      rw [hjp] at hw' hmem'
      refine ⟨(commits.get ⟨i, hi⟩).1 :: l', ?_, ?_, ?_, ?_⟩
      · simp only [walkParents, hlk, hpar, hw']
        rfl
      · refine List.nodup_cons.mpr ⟨?_, hnd'⟩
        intro hmem
        obtain ⟨j', hj', hj'le, hj'eq⟩ := hidx' _ hmem
        exact key_get_ne wf.nodup hi hj' (by omega) hj'eq
      · intro x hx
        rcases List.mem_cons.mp hx with rfl | hx'
        · exact ⟨i, hi, Nat.le_refl i, rfl⟩
        · obtain ⟨j', hj', hle, heq⟩ := hidx' x hx'
          exact ⟨j', hj', by omega, heq⟩
      · intro x
        constructor
        · intro hx
          rcases List.mem_cons.mp hx with rfl | hx'
          · exact Relation.ReflTransGen.refl
          · exact Relation.ReflTransGen.head ⟨_, hlk, hpar⟩ ((hmem' x).mp hx')
        · intro hr
          rcases Relation.ReflTransGen.cases_head hr with rfl | ⟨y, hstep, hrest⟩
          · simp
          · obtain ⟨c, hc, hcp⟩ := hstep
            rw [hlk] at hc
            injection hc with hc
            subst hc
            rw [hpar] at hcp
            injection hcp with hcp
            subst hcp
            exact List.mem_cons.mpr (Or.inr ((hmem' x).mpr hrest))

theorem walkParents_wf_start (commits : List (String × Commit)) (wf : GraphWf commits)
    (start : Option String) (hstart : ∀ c, start = some c → c ∈ dictKeys commits) :
    ∃ l, walkParents commits (commits.length + 1) start = some l ∧ l.Nodup ∧
      (∀ x, x ∈ l ↔ ∃ c0, start = some c0 ∧
        Relation.ReflTransGen (ParentRel commits) c0 x) := by
  cases start with
  | none =>
    refine ⟨[], by simp [walkParents], List.nodup_nil, ?_⟩
    intro x
    simp
  | some c =>
    obtain ⟨i, hi, hkey⟩ := mem_dictKeys_iff_get.mp (hstart c rfl)
    obtain ⟨l, hw, hnd, _, hmem⟩ :=
      walk_from_index commits wf i hi (commits.length + 1) (by omega)
    rw [hkey] at hw hmem
    refine ⟨l, hw, hnd, ?_⟩
    intro x
    rw [hmem x]
    constructor
    · intro h
      exact ⟨c, rfl, h⟩
    · rintro ⟨c0, hc0, h⟩
      injection hc0 with hc0
      subst hc0
      exact h

theorem stateWf_init : StateWf initState := by
  refine ⟨⟨List.nodup_nil, ?_⟩, ?_, ?_⟩
  · intro i h p hpar
    exact absurd h (by simp [initState])
  · intro c hc
    exact absurd hc (by simp [initState])
  · intro b ptr c hb hptr
    have hb' : ptr = none := by
      have : dictLookup b [("main", (none : Option String))] = some ptr := hb
      by_cases hmain : "main" = b
      · simp [dictLookup, hmain] at this
        exact this.symm
      · simp [dictLookup, hmain] at this
    rw [hb'] at hptr
    exact absurd hptr (by simp)

theorem graphWf_append {commits : List (String × Commit)} (wf : GraphWf commits)
    (cid : String) (nc : Commit) (hfresh : cid ∉ dictKeys commits)
    (hparent : ∀ p, nc.parent_id = some p → p ∈ dictKeys commits) :
    GraphWf (commits ++ [(cid, nc)]) := by
  have hkeys : dictKeys (commits ++ [(cid, nc)]) = dictKeys commits ++ [cid] := by
    simp [dictKeys]
  constructor
  · rw [hkeys]
    simp [List.nodup_append, wf.nodup, hfresh]
  · intro i h p hpar
    have hlen : i < commits.length + 1 := by simpa using h
    by_cases hil : i < commits.length
    · have hget : (commits ++ [(cid, nc)]).get ⟨i, h⟩ = commits.get ⟨i, hil⟩ := by
        simp only [List.get_eq_getElem]
        exact List.getElem_append_left hil
      rw [hget] at hpar
      have hmem := wf.parents i hil p hpar
      have htake : (commits ++ [(cid, nc)]).take i = commits.take i :=
        List.take_append_of_le_length (by omega)
      rw [htake]
      exact hmem
    · have hie : i = commits.length := by omega
      subst hie
      have hget : (commits ++ [(cid, nc)]).get ⟨commits.length, h⟩ = (cid, nc) := by
        simp only [List.get_eq_getElem]
        exact List.getElem_concat_length commits (cid, nc) commits.length rfl h
      rw [hget] at hpar
      have hmem := hparent p hpar
      have htake : (commits ++ [(cid, nc)]).take commits.length = commits :=
        List.take_left commits [(cid, nc)]
      rw [htake]
      exact hmem

theorem stateWf_step (hash : String → String) (s : RepoState) (op : Op)
    (hwf : StateWf s) (hf : stepFresh hash s op = true) : StateWf (execOp hash s op) := by
  cases op with
  | add f c =>
    obtain ⟨wd, st, he⟩ := execOp_add_shape hash f c s
    rw [he]
    exact ⟨hwf.graph, hwf.headWf, hwf.branchWf⟩
  | commit t m a =>
    by_cases hs : s.staging_stack = []
    · have he : execOp hash s (.commit t m a) = s := by simp [execOp, commitOp, hs]
      rw [he]
      exact hwf
    · have he : execOp hash s (.commit t m a) = commitResultState hash t m a s := by
        simp [execOp, commitOp_ok hash t m a s hs]
      have hfr : commitIdOf hash t m a s ∉ dictKeys s.commits := by
        simp only [stepFresh, if_neg hs] at hf
        exact of_decide_eq_true hf
      rw [he]
      have hins : dictInsert (commitIdOf hash t m a s) (newCommitOf hash t m a s) s.commits =
          s.commits ++ [(commitIdOf hash t m a s, newCommitOf hash t m a s)] :=
        dictInsert_of_not_mem _ hfr
      have hkeys : dictKeys (s.commits ++
          [(commitIdOf hash t m a s, newCommitOf hash t m a s)]) =
          dictKeys s.commits ++ [commitIdOf hash t m a s] := by
        simp [dictKeys]
      constructor
      · show GraphWf (dictInsert (commitIdOf hash t m a s) (newCommitOf hash t m a s) s.commits)
        rw [hins]
        refine graphWf_append hwf.graph _ _ hfr ?_
        intro p hp
        exact hwf.headWf p hp
      · intro c hc
        have hc2 : some (commitIdOf hash t m a s) = some c := by
          rw [← hc]
          rfl
        injection hc2 with hc2
        subst hc2
        show commitIdOf hash t m a s ∈
          dictKeys (dictInsert (commitIdOf hash t m a s) (newCommitOf hash t m a s) s.commits)
        rw [hins, hkeys]
        simp
      · intro b ptr c hb hptr
        show c ∈ dictKeys (dictInsert (commitIdOf hash t m a s) (newCommitOf hash t m a s) s.commits)
        rw [hins, hkeys]
        have hb' : dictLookup b (commitResultState hash t m a s).branches = some ptr := hb
        by_cases hd : s.detached_head
        · have : (commitResultState hash t m a s).branches = s.branches := by
            simp [commitResultState, hd]
          rw [this] at hb'
          exact List.mem_append.mpr (Or.inl (hwf.branchWf b ptr c hb' hptr))
        · have : (commitResultState hash t m a s).branches =
              dictInsert s.current_branch (some (commitIdOf hash t m a s)) s.branches := by
            simp [commitResultState, hd]
          rw [this, dictLookup_insert] at hb'
          by_cases hcb : s.current_branch = b
          · rw [if_pos hcb] at hb'
            injection hb' with hb'
            rw [← hb'] at hptr
            injection hptr with hptr
            subst hptr
            simp
          · rw [if_neg hcb] at hb'
            exact List.mem_append.mpr (Or.inl (hwf.branchWf b ptr c hb' hptr))
  | branch n =>
    by_cases hn : n ∈ dictKeys s.branches
    · have he : execOp hash s (.branch n) = s := by simp [execOp, branchOp, hn]
      rw [he]
      exact hwf
    · have he : execOp hash s (.branch n) =
          { s with branches := dictInsert n s.head s.branches } := by
        simp [execOp, branchOp, hn]
      rw [he]
      refine ⟨hwf.graph, hwf.headWf, ?_⟩
      intro b ptr c hb hptr
      have hb' : dictLookup b (dictInsert n s.head s.branches) = some ptr := hb
      rw [dictLookup_insert] at hb'
      by_cases hnb : n = b
      · rw [if_pos hnb] at hb'
        injection hb' with hb'
        rw [← hb'] at hptr
        exact hwf.headWf c hptr
      · rw [if_neg hnb] at hb'
        exact hwf.branchWf b ptr c hb' hptr
  | checkout n =>
    rcases checkoutOp_shape n s with ⟨e, he⟩ | ⟨ptr, wd, hb, he⟩
    · have h2 : execOp hash s (.checkout n) = s := by simp [execOp, he]
      rw [h2]
      exact hwf
    · have h2 : execOp hash s (.checkout n) =
          { s with current_branch := n, head := ptr, detached_head := false,
                   working_directory := wd, staging_stack := [] } := by
        simp [execOp, he]
      rw [h2]
      refine ⟨hwf.graph, ?_, hwf.branchWf⟩
      intro c hc
      exact hwf.branchWf n ptr c hb hc
  | checkoutCommit i =>
    rcases hc : dictLookup i s.commits with _ | cm
    · have h2 : execOp hash s (.checkoutCommit i) = s := by
        simp [execOp, checkoutCommitOp, hc]
      rw [h2]
      exact hwf
    · by_cases hs : s.staging_stack ≠ []
      · have h2 : execOp hash s (.checkoutCommit i) = s := by
          simp [execOp, checkoutCommitOp, hc, hs]
        rw [h2]
        exact hwf
      · have h2 : execOp hash s (.checkoutCommit i) =
            { s with head := some i, detached_head := true,
                     working_directory := cm.changes, staging_stack := [] } := by
          simp [execOp, checkoutCommitOp, hc, hs]
        rw [h2]
        refine ⟨hwf.graph, ?_, hwf.branchWf⟩
        intro c hcc
        have h3 : some i = some c := by
          rw [← hcc]
        injection h3 with h3
        subst h3
        exact mem_dictKeys_of_lookup hc
  | createPR t ti d sb tb au =>
    rcases execOp_createPR_shape hash t ti d sb tb au s with he | ⟨pid, pr, he⟩ <;> rw [he]
    · exact hwf
    · exact ⟨hwf.graph, hwf.headWf, hwf.branchWf⟩
  | reviewPR p r =>
    obtain ⟨q, pm, he⟩ := execOp_prMut_shape hash s (.reviewPR p r) (Or.inl ⟨p, r, rfl⟩)
    rw [he]
    exact ⟨hwf.graph, hwf.headWf, hwf.branchWf⟩
  | approvePR t p =>
    obtain ⟨q, pm, he⟩ := execOp_prMut_shape hash s (.approvePR t p)
      (Or.inr (Or.inl ⟨t, p, rfl⟩))
    rw [he]
    exact ⟨hwf.graph, hwf.headWf, hwf.branchWf⟩
  | rejectPR t p =>
    obtain ⟨q, pm, he⟩ := execOp_prMut_shape hash s (.rejectPR t p)
      (Or.inr (Or.inr (Or.inl ⟨t, p, rfl⟩)))
    rw [he]
    exact ⟨hwf.graph, hwf.headWf, hwf.branchWf⟩
  | cancelPR t p =>
    obtain ⟨q, pm, he⟩ := execOp_prMut_shape hash s (.cancelPR t p)
      (Or.inr (Or.inr (Or.inr (Or.inl ⟨t, p, rfl⟩))))
    rw [he]
    exact ⟨hwf.graph, hwf.headWf, hwf.branchWf⟩
  | tagPR p tg =>
    obtain ⟨q, pm, he⟩ := execOp_prMut_shape hash s (.tagPR p tg)
      (Or.inr (Or.inr (Or.inr (Or.inr (Or.inl ⟨p, tg, rfl⟩)))))
    rw [he]
    exact ⟨hwf.graph, hwf.headWf, hwf.branchWf⟩
  | clearPRs =>
    obtain ⟨q, pm, he⟩ := execOp_prMut_shape hash s .clearPRs
      (Or.inr (Or.inr (Or.inr (Or.inr (Or.inr rfl)))))
    rw [he]
    exact ⟨hwf.graph, hwf.headWf, hwf.branchWf⟩

theorem stateWf_run (hash : String → String) (ops : List Op) (s : RepoState)
    (hwf : StateWf s) (hf : freshRun hash s ops = true) :
    StateWf (execOps hash s ops) := by
  induction ops generalizing s with
  | nil => exact hwf
  | cons op rest ih =>
    simp only [freshRun, Bool.and_eq_true] at hf
    exact ih (execOp hash s op) (stateWf_step hash s op hwf hf.1) hf.2

/-- **C9.** In every state reached by a collision-free run (`freshRun`
models SHA-1 never colliding, the only behaviour the source can exhibit
in practice), the parent walk used by `get_commit_history` and
`_get_branch_commits` — fuelled here by one more than the graph size,
enough for every terminating Python run — succeeds from the head and
from every branch pointer: it never hits a missing commit, never cycles
(the visited ids are distinct), and visits exactly the commits reachable
through parent links, i.e. as many steps as the lineage has commits. -/
theorem parent_walk_terminates_spec (hash : String → String) (ops : List Op)
    (hf : freshRun hash initState ops = true) (start : Option String)
    (hstart : start = (execOps hash initState ops).head ∨
      ∃ b, dictLookup b (execOps hash initState ops).branches = some start) :
    ∃ l, walkParents (execOps hash initState ops).commits
        ((execOps hash initState ops).commits.length + 1) start = some l ∧
      l.Nodup ∧
      (∀ x ∈ l, x ∈ dictKeys (execOps hash initState ops).commits) ∧
      (∀ x, x ∈ l ↔ ∃ c0, start = some c0 ∧
        Relation.ReflTransGen (ParentRel (execOps hash initState ops).commits) c0 x) ∧
      getCommitHistory (execOps hash initState ops) =
        walkParents (execOps hash initState ops).commits
          ((execOps hash initState ops).commits.length + 1)
          (execOps hash initState ops).head := by
  have hwf := stateWf_run hash ops initState stateWf_init hf
  have hvalid : ∀ c, start = some c → c ∈ dictKeys (execOps hash initState ops).commits := by
    intro c hc
    rcases hstart with hh | ⟨b, hb⟩
    · exact hwf.headWf c (by rw [← hh]; exact hc)
    · exact hwf.branchWf b start c hb hc
  obtain ⟨l, hw, hnd, hmem⟩ :=
    walkParents_wf_start (execOps hash initState ops).commits hwf.graph start hvalid
  refine ⟨l, hw, hnd, ?_, hmem, rfl⟩
  intro x hx
  obtain ⟨c, hc⟩ := walkParents_mem (execOps hash initState ops).commits _ start l hw x hx
  exact mem_dictKeys_of_lookup hc

/-- Witness for `parent_walk_terminates_spec`: two commits, walk from the
head; the walk lists both commit ids without repetition. -/
theorem parent_walk_terminates_spec_witness :
    freshRun (fun x => x) initState
      [.add "a.txt" "1", .commit 0 "first" "e", .add "a.txt" "2", .commit 1 "second" "e"]
      = true ∧
    ∃ l, walkParents (execOps (fun x => x) initState
        [.add "a.txt" "1", .commit 0 "first" "e",
         .add "a.txt" "2", .commit 1 "second" "e"]).commits
      ((execOps (fun x => x) initState
        [.add "a.txt" "1", .commit 0 "first" "e",
         .add "a.txt" "2", .commit 1 "second" "e"]).commits.length + 1)
      (execOps (fun x => x) initState
        [.add "a.txt" "1", .commit 0 "first" "e",
         .add "a.txt" "2", .commit 1 "second" "e"]).head = some l ∧
      l.Nodup ∧
      (∀ x ∈ l, x ∈ dictKeys (execOps (fun x => x) initState
        [.add "a.txt" "1", .commit 0 "first" "e",
         .add "a.txt" "2", .commit 1 "second" "e"]).commits) := by
  refine ⟨by decide, ?_⟩
  obtain ⟨l, hw, hnd, hsub, _, _⟩ := parent_walk_terminates_spec (fun x => x)
    [.add "a.txt" "1", .commit 0 "first" "e", .add "a.txt" "2", .commit 1 "second" "e"]
    (by decide)
    (execOps (fun x => x) initState
      [.add "a.txt" "1", .commit 0 "first" "e",
       .add "a.txt" "2", .commit 1 "second" "e"]).head
    (Or.inl rfl)
  exact ⟨l, hw, hnd, hsub⟩

/-! ## C1: when not detached, the current branch pointer equals head -/

theorem branchHeadInv_init : BranchHeadInv initState := by
  intro _
  rfl

theorem branchHeadInv_step (hash : String → String) (s : RepoState) (op : Op)
    (h : BranchHeadInv s) : BranchHeadInv (execOp hash s op) := by
  cases op with
  | add f c =>
    obtain ⟨wd, st, he⟩ := execOp_add_shape hash f c s
    rw [he]; exact h
  | commit t m a =>
    by_cases hs : s.staging_stack = []
    · have he : execOp hash s (.commit t m a) = s := by simp [execOp, commitOp, hs]
      rw [he]; exact h
    · have he : execOp hash s (.commit t m a) = commitResultState hash t m a s := by
        simp [execOp, commitOp_ok hash t m a s hs]
      rw [he]
      intro hd
      have hd' : s.detached_head = false := hd
      simp [commitResultState, hd', dictLookup_insert_self]
  | branch n =>
    by_cases hn : n ∈ dictKeys s.branches
    · have he : execOp hash s (.branch n) = s := by simp [execOp, branchOp, hn]
      rw [he]; exact h
    · have he : execOp hash s (.branch n) =
          { s with branches := dictInsert n s.head s.branches } := by
        simp [execOp, branchOp, hn]
      rw [he]
      intro hd
      have h1 := h hd
      have hcur : s.current_branch ∈ dictKeys s.branches := mem_dictKeys_of_lookup h1
      have hne : n ≠ s.current_branch := fun hh => hn (hh ▸ hcur)
      show dictLookup s.current_branch (dictInsert n s.head s.branches) = some s.head
      rw [dictLookup_insert_ne _ _ hne]
      exact h1
  | checkout n =>
    rcases checkoutOp_shape n s with ⟨e, he⟩ | ⟨ptr, wd, hb, he⟩
    · have h2 : execOp hash s (.checkout n) = s := by simp [execOp, he]
      rw [h2]; exact h
    · have h2 : execOp hash s (.checkout n) =
          { s with current_branch := n, head := ptr, detached_head := false,
                   working_directory := wd, staging_stack := [] } := by
        simp [execOp, he]
      rw [h2]
      intro _
      exact hb
  | checkoutCommit i =>
    rcases execOp_checkoutCommit_shape hash i s with he | ⟨wd, he⟩
    · rw [he]; exact h
    · rw [he]; intro hd; exact absurd hd (by simp)
  | createPR t ti d sb tb au =>
    rcases execOp_createPR_shape hash t ti d sb tb au s with he | ⟨pid, pr, he⟩
    · rw [he]; exact h
    · rw [he]; exact h
  | reviewPR p r =>
    obtain ⟨q, pm, he⟩ := execOp_prMut_shape hash s (.reviewPR p r) (Or.inl ⟨p, r, rfl⟩)
    rw [he]; exact h
  | approvePR t p =>
    obtain ⟨q, pm, he⟩ := execOp_prMut_shape hash s (.approvePR t p)
      (Or.inr (Or.inl ⟨t, p, rfl⟩))
    rw [he]; exact h
  | rejectPR t p =>
    obtain ⟨q, pm, he⟩ := execOp_prMut_shape hash s (.rejectPR t p)
      (Or.inr (Or.inr (Or.inl ⟨t, p, rfl⟩)))
    rw [he]; exact h
  | cancelPR t p =>
    obtain ⟨q, pm, he⟩ := execOp_prMut_shape hash s (.cancelPR t p)
      (Or.inr (Or.inr (Or.inr (Or.inl ⟨t, p, rfl⟩))))
    rw [he]; exact h
  | tagPR p tg =>
    obtain ⟨q, pm, he⟩ := execOp_prMut_shape hash s (.tagPR p tg)
      (Or.inr (Or.inr (Or.inr (Or.inr (Or.inl ⟨p, tg, rfl⟩)))))
    rw [he]; exact h
  | clearPRs =>
    obtain ⟨q, pm, he⟩ := execOp_prMut_shape hash s .clearPRs
      (Or.inr (Or.inr (Or.inr (Or.inr (Or.inr rfl)))))
    rw [he]; exact h

theorem branchHeadInv_execOps (hash : String → String) (ops : List Op) (s : RepoState)
    (h : BranchHeadInv s) : BranchHeadInv (execOps hash s ops) := by
  induction ops generalizing s with
  | nil => exact h
  | cons op rest ih => exact ih _ (branchHeadInv_step hash s op h)

theorem branchHeadInv_reachable (hash : String → String) (s : RepoState)
    (h : Reachable hash s) : BranchHeadInv s := by
  obtain ⟨ops, rfl⟩ := h
  exact branchHeadInv_execOps hash ops initState branchHeadInv_init

/-- **C1.** In every reachable state, if the detached-head flag is false
then `branches[current_branch] = head`; and a successful commit sets head
to the new id and, when not detached, also advances the current branch's
pointer to it, while a commit made in detached mode changes no branch
pointer. -/
theorem branch_head_invariant_spec (hash : String → String) (s : RepoState)
    (hr : Reachable hash s) :
    (s.detached_head = false → dictLookup s.current_branch s.branches = some s.head) ∧
    (∀ t m a cid s', commitOp hash t m a s = .ok (cid, s') →
      (s.detached_head = false →
        s'.head = some cid ∧ dictLookup s'.current_branch s'.branches = some (some cid)) ∧
      (s.detached_head = true → s'.head = some cid ∧ s'.branches = s.branches)) := by
  refine ⟨branchHeadInv_reachable hash s hr, ?_⟩
  intro t m a cid s' hok
  have hs : s.staging_stack ≠ [] := by
    intro hnil
    have herr : commitOp hash t m a s = .error (.emptyStaging, s) := by
      simp [commitOp, hnil]
    rw [herr] at hok
    exact absurd hok (by simp)
  rw [commitOp_ok hash t m a s hs] at hok
  have hcid : cid = commitIdOf hash t m a s := by
    injection hok with hok1
    injection hok1 with h1 h2
    exact h1.symm
  have hst : s' = commitResultState hash t m a s := by
    injection hok with hok1
    injection hok1 with h1 h2
    exact h2.symm
  subst hcid; subst hst
  constructor
  · intro hd
    have hd' : s.detached_head = false := hd
    constructor
    · rfl
    · simp [commitResultState, hd', dictLookup_insert_self]
  · intro hd
    have hd' : s.detached_head = true := hd
    constructor
    · rfl
    · simp [commitResultState, hd']

/-- Witness for `branch_head_invariant_spec`: one staged file, then one
commit on `main` while not detached. -/
theorem branch_head_invariant_spec_witness :
    (dictLookup (execOps (fun _ => "c1") initState [.add "a.txt" "1"]).current_branch
        (execOps (fun _ => "c1") initState [.add "a.txt" "1"]).branches =
      some (execOps (fun _ => "c1") initState [.add "a.txt" "1"]).head) ∧
    ∃ s', commitOp (fun _ => "c1") 0 "m" "a@b"
        (execOps (fun _ => "c1") initState [.add "a.txt" "1"]) = .ok ("c1", s') ∧
      s'.head = some "c1" ∧
      dictLookup s'.current_branch s'.branches = some (some "c1") := by
  have hr : Reachable (fun _ => "c1") (execOps (fun _ => "c1") initState [.add "a.txt" "1"]) :=
    ⟨[.add "a.txt" "1"], rfl⟩
  have h := branch_head_invariant_spec (fun _ => "c1") _ hr
  constructor
  · exact h.1 (by decide)
  · have hne : (execOps (fun _ => "c1") initState [.add "a.txt" "1"]).staging_stack ≠ [] := by
      decide
    have hok := commitOp_ok (fun _ => "c1") 0 "m" "a@b" _ hne
    have hcid : commitIdOf (fun _ => "c1") 0 "m" "a@b"
        (execOps (fun _ => "c1") initState [.add "a.txt" "1"]) = "c1" := rfl
    rw [hcid] at hok
    obtain ⟨h1, h2⟩ := (h.2 0 "m" "a@b" "c1" _ hok).1 (by decide)
    exact ⟨_, hok, h1, h2⟩

/-! ## C2: commit on empty staging fails and changes nothing -/

/-- **C2.** If the staging area is empty, `commit` fails with the
`EmptyStagingError` kind (`"Nada para commitear"`) and the repository
state — commit graph, head, branches, working directory and staging —
is exactly as before; if the staging area is non-empty, `commit` never
raises that error (it succeeds outright). -/
theorem commit_empty_staging_spec (hash : String → String) (t : Nat) (m a : String)
    (s : RepoState) :
    (s.staging_stack = [] →
      commitOp hash t m a s = .error (.emptyStaging, s) ∧
      execOp hash s (.commit t m a) = s) ∧
    (s.staging_stack ≠ [] → ∃ cid s', commitOp hash t m a s = .ok (cid, s')) := by
  constructor
  · intro h
    have h1 : commitOp hash t m a s = .error (.emptyStaging, s) := by
      simp [commitOp, h]
    exact ⟨h1, by simp [execOp, h1]⟩
  · intro h
    simp only [commitOp, if_neg h]
    exact ⟨_, _, rfl⟩

/-- Witness for `commit_empty_staging_spec` on a fresh repository (empty
staging) and on a repository with one staged file. -/
theorem commit_empty_staging_spec_witness :
    (commitOp (fun x => x) 0 "first" "a@b" initState = .error (.emptyStaging, initState) ∧
      execOp (fun x => x) initState (.commit 0 "first" "a@b") = initState) ∧
    (∃ cid s', commitOp (fun x => x) 0 "first" "a@b"
        (execOp (fun x => x) initState (.add "a.txt" "1")) = .ok (cid, s')) := by
  refine ⟨(commit_empty_staging_spec (fun x => x) 0 "first" "a@b" initState).1 rfl, ?_⟩
  exact (commit_empty_staging_spec (fun x => x) 0 "first" "a@b"
    (execOp (fun x => x) initState (.add "a.txt" "1"))).2 (by decide)

/-! ## C4: checkout with non-empty staging fails and changes nothing -/

/-- **C4.** On any state with a non-empty staging area, `checkout` of an
existing branch and `checkout_commit` of an existing commit both fail
with the `UncommittedChangesError` kind and leave the repository state
exactly as it was; staged work is never silently discarded. -/
theorem checkout_uncommitted_spec (hash : String → String) (s : RepoState)
    (bname cid : String) (ptr : Option String) (c : Commit)
    (hb : dictLookup bname s.branches = some ptr)
    (hc : dictLookup cid s.commits = some c)
    (hs : s.staging_stack ≠ []) :
    checkoutOp bname s = .error (.uncommittedChanges, s) ∧
    checkoutCommitOp cid s = .error (.uncommittedChanges, s) ∧
    execOp hash s (.checkout bname) = s ∧
    execOp hash s (.checkoutCommit cid) = s := by
  have h1 : checkoutOp bname s = .error (.uncommittedChanges, s) := by
    simp [checkoutOp, hb, hs]
  have h2 : checkoutCommitOp cid s = .error (.uncommittedChanges, s) := by
    simp [checkoutCommitOp, hc, hs]
  exact ⟨h1, h2, by simp [execOp, h1], by simp [execOp, h2]⟩

/-- Witness for `checkout_uncommitted_spec`: stage a file, commit it,
then stage another file and try to switch away. -/
theorem checkout_uncommitted_spec_witness :
    checkoutOp "main"
      (execOps (fun _ => "c1") initState
        [.add "a.txt" "1", .commit 0 "m" "a@b", .add "b.txt" "2"])
      = .error (.uncommittedChanges,
          execOps (fun _ => "c1") initState
            [.add "a.txt" "1", .commit 0 "m" "a@b", .add "b.txt" "2"]) ∧
    checkoutCommitOp "c1"
      (execOps (fun _ => "c1") initState
        [.add "a.txt" "1", .commit 0 "m" "a@b", .add "b.txt" "2"])
      = .error (.uncommittedChanges,
          execOps (fun _ => "c1") initState
            [.add "a.txt" "1", .commit 0 "m" "a@b", .add "b.txt" "2"]) := by
  have h := checkout_uncommitted_spec (fun _ => "c1")
    (execOps (fun _ => "c1") initState
      [.add "a.txt" "1", .commit 0 "m" "a@b", .add "b.txt" "2"])
    "main" "c1" (some "c1")
    { id := "c1", message := "m", timestamp := 0, author_email := "a@b",
      parent_id := none, changes := [("a.txt", "1")], branch := "main" }
    (by decide) (by decide) (by decide)
  exact ⟨h.1, h.2.1⟩

end GitSim
